import Mathlib

/-!
Verification development for the SCS ToolKit text-engine core
(`src/extension.ts` of the ETS2-ATS-SCS-ToolKit repository).

Strings are modelled as `List Char`; JavaScript numbers appearing in the
color engine are modelled as exact rationals (the kernel-computable
fraction type `Q` below), with the IEEE-754 double overflow threshold made
explicit where the code tests `isFinite`.  Every definition below is a
direct translation of the corresponding TypeScript function; doc comments
point to the source symbol.
-/

set_option maxRecDepth 100000

namespace ScsToolkit

/-- Strings are lists of characters. -/
abbrev Str := List Char

/-- Whitespace as recognised by JavaScript `String.prototype.trim` and the
regex class `\s` (restricted to the characters that can occur in the
documents this tool handles: space, tab, LF, CR, vertical tab, form feed,
NBSP, BOM). -/
def isJsWs (c : Char) : Bool :=
  c = ' ' || c = '\t' || c = '\n' || c = '\r' || c = '\x0b' || c = '\x0c' ||
  c = ' ' || c = '﻿'

/-- Drop the longest leading run of characters satisfying `p`. -/
def dropLeading (p : Char → Bool) (s : Str) : Str := s.dropWhile p

/-- Drop the longest trailing run of characters satisfying `p`. -/
def dropTrailing (p : Char → Bool) (s : Str) : Str := (s.reverse.dropWhile p).reverse

/-- JavaScript `String.prototype.trim`. -/
def jsTrim (s : Str) : Str := dropTrailing isJsWs (dropLeading isJsWs s)

/-- JavaScript `String.prototype.trimEnd`. -/
def jsTrimEnd (s : Str) : Str := dropTrailing isJsWs s

/-- The formatter's `raw.replace(/[ \t]+$/g, "")` (trailing spaces/tabs only). -/
def trimTail (s : Str) : Str := dropTrailing (fun c => c = ' ' || c = '\t') s

/-- Boolean string prefix test (`String.prototype.startsWith`);
first argument is the pattern. -/
def startsWith : Str → Str → Bool
  | [], _ => true
  | _ :: _, [] => false
  | c :: p, d :: s => c = d && startsWith p s

/-- Does the string end with a literal open brace? (`value.endsWith("\x7b")`). -/
def endsWithBrace (s : Str) : Bool :=
  match s.reverse with
  | '\x7b' :: _ => true
  | _ => false

/-- `input.split(/\r?\n/)`: split on LF or CRLF; a lone CR is not a
separator and stays inside its line. -/
def splitLines : Str → List Str
  | [] => [[]]
  | '\r' :: '\n' :: rest => [] :: splitLines rest
  | '\n' :: rest => [] :: splitLines rest
  | c :: rest =>
    match splitLines rest with
    | h :: t => (c :: h) :: t
    | [] => [[c]]

/-- `lines.join("\n")`. -/
def joinNl : List Str → Str
  | [] => []
  | [x] => x
  | x :: xs => x ++ '\n' :: joinNl xs

/-- `indent.repeat(n)`. -/
def repeatN (s : Str) : ℕ → Str
  | 0 => []
  | Nat.succ n => s ++ repeatN s n

/-- `key.padEnd(w, " ")`. -/
def padEndSpaces (s : Str) (w : ℕ) : Str := s ++ List.replicate (w - s.length) ' '

/-- `isCommentOrEmpty` from `extension.ts` (note: `#` is NOT in this list). -/
def isCommentOrEmpty (line : Str) : Bool :=
  let t := jsTrim line
  t.length = 0 || startsWith "//".data t || startsWith "/*".data t ||
    startsWith "*".data t || startsWith "*/".data t

/-! ### Formatter (`formatScsText`) -/

/-- The options bundle consumed by `formatScsText` (`FormatOpts` in the source). -/
structure FormatOpts where
  enabled : Bool
  onSave : Bool
  alignColons : Bool
  maxEmptyLines : ℕ
  trimTrailingWhitespace : Bool
  spaceAfterCommaInTuples : Bool
  indent : Str
deriving DecidableEq

/-- A buffered key/value line (`type KV` in `formatScsText`). -/
structure KV where
  indentStr : Str
  key : Str
  value : Str
  level : ℤ
deriving DecidableEq

/-- The formatter's mutable state: nesting level, blank-line run counter,
pending alignment group with its level, and the output lines. -/
structure FmtState where
  level : ℤ
  emptyRun : ℕ
  group : List KV
  groupLevel : Option ℤ
  out : List Str
deriving DecidableEq

def initState : FmtState := ⟨0, 0, [], none, []⟩

/-- First character of the key-identifier class `[A-Za-z_]`. -/
def isKeyStart (c : Char) : Bool := c.isAlpha || c = '_'

/-- Key-body class of the formatter's `kvRe`: `[A-Za-z0-9_\.\-]`. -/
def isKvKeyChar (c : Char) : Bool := c.isAlpha || c.isDigit || c = '_' || c = '.' || c = '-'

/-- The formatter's key/value regex
`^([A-Za-z_][A-Za-z0-9_\.\-]*(?:\[\])?)\s*:\s*(.*)$` applied to the trimmed
line, returning the captured key and the already-trimmed value
(`(m[2] ?? "").trim()`).  `(.*)` cannot cross a raw CR (a line terminator
for the regex dot), so a match requires the value region to be CR-free. -/
def kvMatch (t : Str) : Option (Str × Str) :=
  match t with
  | [] => none
  | c :: rest =>
    if isKeyStart c then
      let run := rest.takeWhile isKvKeyChar
      let rest2 := rest.drop run.length
      let tryTail := fun (key : Str) (r : Str) =>
        match r.dropWhile isJsWs with
        | ':' :: after =>
          let v := after.dropWhile isJsWs
          if v.contains '\r' then none else some (key, jsTrimEnd v)
        | _ => none
      match rest2 with
      | '[' :: ']' :: r3 => tryTail (c :: (run ++ ['[', ']'])) r3
      | _ => tryTail (c :: run) rest2
    else none

/-- `isComment` local to `formatScsText` (only `#` and `//`). -/
def fmtIsComment (t : Str) : Bool := startsWith "#".data t || startsWith "//".data t

/-- `isDirective` local to `formatScsText`. -/
def fmtIsDirective (t : Str) : Bool := startsWith "@".data t

/-- `inner.split(",")`. -/
def splitComma : Str → List Str
  | [] => [[]]
  | c :: rest =>
    let r := splitComma rest
    if c = ',' then [] :: r
    else
      match r with
      | h :: t => (c :: h) :: t
      | [] => [[c]]

/-- `parts.join(", ")`. -/
def joinCommaSpace : List Str → Str
  | [] => []
  | [x] => x
  | x :: xs => x ++ ',' :: ' ' :: joinCommaSpace xs

/-- Tuple-spacing normalisation of a key/value line's value:
`/^\((.*)\)$/` then re-join the comma-separated parts with `", "`. -/
def normTuple (v : Str) : Str :=
  match v with
  | '(' :: rest =>
    match rest.reverse with
    | ')' :: mid =>
      let inner := mid.reverse
      '(' :: (joinCommaSpace ((splitComma inner).map jsTrim) ++ [')'])
    | _ => v
  | _ => v

/-- Largest key length in a group (`Math.max(...group.map(g => g.key.length))`). -/
def maxKeyLen (g : List KV) : ℕ := g.foldl (fun acc e => max acc e.key.length) 0

/-- One aligned output line of a flushed group:
`` `${g.indentStr}${paddedKey}: ${g.value}`.trimEnd() ``. -/
def renderAligned (w : ℕ) (e : KV) : Str :=
  jsTrimEnd (e.indentStr ++ padEndSpaces e.key w ++ ':' :: ' ' :: e.value)

/-- One unaligned output line of a flushed group:
`` `${g.indentStr}${g.key}: ${g.value}`.trimEnd() ``. -/
def renderPlain (e : KV) : Str :=
  jsTrimEnd (e.indentStr ++ e.key ++ ':' :: ' ' :: e.value)

/-- The lines emitted when a pending group is flushed. -/
def flushLines (opts : FormatOpts) (g : List KV) : List Str :=
  if g.isEmpty then []
  else if opts.alignColons then g.map (renderAligned (maxKeyLen g))
  else g.map renderPlain

/-- `flushGroup` from `formatScsText`: emit the buffered group (aligned when
requested) and clear it; a no-op on an empty group. -/
def flushGroup (opts : FormatOpts) (s : FmtState) : FmtState :=
  if s.group.isEmpty then s
  else { s with out := s.out ++ flushLines opts s.group, group := [], groupLevel := none }

/-- Apply `f` to the last element of a list (`out[out.length - 1] = f(...)`). -/
def modifyLast (f : Str → Str) : List Str → List Str
  | [] => []
  | [x] => [f x]
  | x :: xs => x :: modifyLast f xs

/-- `line.replace(/\s*\{$/, " \x7b")`: if the line ends with `\x7b`, strip the
brace and any whitespace before it and append `" \x7b"`. -/
def fixBraceEnd (s : Str) : Str :=
  match s.reverse with
  | '\x7b' :: w => (w.dropWhile isJsWs).reverse ++ [' ', '\x7b']
  | _ => s

/-- The body of `formatScsText`'s loop for a non-blank line, taking the
already-trimmed text.  (`emptyRun` has been reset by the caller.) -/
def processNonBlank (opts : FormatOpts) (s0 : FmtState) (trimmed : Str) : FmtState :=
  let lvl : ℤ := if startsWith "\x7d".data trimmed then max 0 (s0.level - 1) else s0.level
  let s1 : FmtState := { s0 with level := lvl }
  let indentStr := repeatN opts.indent lvl.toNat
  if trimmed = "SiiNunit".data ∨ trimmed = "SiiNunit\x7b".data ∨ trimmed = "SiiNunit \x7b".data then
    let s2 := flushGroup opts s1
    { s2 with out := s2.out ++ ["SiiNunit".data] }
  else if trimmed = "\x7b".data ∨ trimmed = "\x7d".data ∨
      fmtIsComment trimmed = true ∨ fmtIsDirective trimmed = true then
    let s2 := flushGroup opts s1
    let s3 : FmtState := { s2 with out := s2.out ++ [indentStr ++ trimmed] }
    if endsWithBrace trimmed then { s3 with level := s3.level + 1 } else s3
  else
    match kvMatch trimmed with
    | some (key, v0) =>
      let value := if opts.spaceAfterCommaInTuples then normTuple v0 else v0
      let entry : KV := ⟨indentStr, key, value, lvl⟩
      let s2 : FmtState :=
        match s1.groupLevel with
        | none => { s1 with groupLevel := some lvl, group := s1.group ++ [entry] }
        | some gl =>
          if gl = lvl then { s1 with group := s1.group ++ [entry] }
          else
            let sf := flushGroup opts s1
            { sf with groupLevel := some lvl, group := [entry] }
      if endsWithBrace value then
        let s3 := flushGroup opts s2
        let s4 : FmtState := { s3 with out := modifyLast fixBraceEnd s3.out }
        { s4 with level := s4.level + 1 }
      else s2
    | none =>
      let s2 := flushGroup opts s1
      let s3 : FmtState := { s2 with out := s2.out ++ [indentStr ++ trimmed] }
      if endsWithBrace trimmed then { s3 with level := s3.level + 1 } else s3

/-- The trimmed text of one input line: optional trailing-whitespace strip
(`opts.trimTrailingWhitespace ? raw.replace(/[ \t]+$/g, "") : raw`) followed
by `raw.trim()`. -/
def lineTrimmed (opts : FormatOpts) (rawLine : Str) : Str :=
  jsTrim (if opts.trimTrailingWhitespace then trimTail rawLine else rawLine)

/-- One iteration of `formatScsText`'s `for` loop. -/
def processLine (opts : FormatOpts) (s : FmtState) (rawLine : Str) : FmtState :=
  let trimmed := lineTrimmed opts rawLine
  if trimmed.isEmpty then
    let s1 := flushGroup opts s
    let er := s1.emptyRun + 1
    if er ≤ opts.maxEmptyLines then { s1 with emptyRun := er, out := s1.out ++ [[]] }
    else { s1 with emptyRun := er }
  else
    processNonBlank opts { s with emptyRun := 0 } trimmed

/-- Fold the loop over all lines starting from the initial state. -/
def runFmt (opts : FormatOpts) (ls : List Str) : FmtState :=
  ls.foldl (processLine opts) initState

/-- `formatScsText` from `extension.ts`: split on `\r?\n`, run the state
machine, flush the final group, join with `\n`. -/
def formatScsText (opts : FormatOpts) (input : Str) : Str :=
  joinNl (flushGroup opts (runFmt opts (splitLines input))).out

/-- A concrete options bundle used by concrete evaluations: the extension's
defaults except where noted. -/
def defaultOpts : FormatOpts :=
  ⟨true, false, true, 1, true, true, "\t".data⟩

/-! ### Exact rational numbers with a kernel-computable representation

Batteries' `Rat` operations are `@[irreducible]`, so they cannot be
evaluated by `decide`; the JavaScript numbers of the color engine are
therefore modelled by `Q`, an exact unnormalised fraction with a positive
denominator.  Comparisons are cross-multiplications; `toRat` (defined with
the proofs, far below) interprets `Q` in `ℚ`. -/

/-- An exact rational: integer numerator over a positive denominator. -/
structure Q where
  num : ℤ
  den : ℤ
  dpos : 0 < den

instance : DecidableEq Q := fun a b =>
  decidable_of_iff (a.num = b.num ∧ a.den = b.den) (by cases a; cases b; simp)

/-- Embed an integer. -/
def qInt (n : ℤ) : Q := ⟨n, 1, Int.one_pos⟩

/-- Embed a natural number. -/
def qNat (n : ℕ) : Q := qInt n

/-- Build `n / d`, defaulting to `n / 1` on a non-positive denominator
(never taken at the call sites below). -/
def qMk (n d : ℤ) : Q := if h : 0 < d then ⟨n, d, h⟩ else ⟨n, 1, Int.one_pos⟩

def qZero : Q := qInt 0
def qOne : Q := qInt 1

/-- Addition. -/
def qAdd (a b : Q) : Q :=
  ⟨a.num * b.den + b.num * a.den, a.den * b.den, Int.mul_pos a.dpos b.dpos⟩

/-- Multiplication. -/
def qMul (a b : Q) : Q := ⟨a.num * b.num, a.den * b.den, Int.mul_pos a.dpos b.dpos⟩

/-- Negation. -/
def qNeg (a : Q) : Q := ⟨-a.num, a.den, a.dpos⟩

/-- Division (division by zero yields 0, a case never reached here). -/
def qDiv (a b : Q) : Q :=
  if h : 0 < b.num then ⟨a.num * b.den, a.den * b.num, Int.mul_pos a.dpos h⟩
  else if h2 : b.num < 0 then
    ⟨-(a.num * b.den), a.den * (-b.num), Int.mul_pos a.dpos (by omega)⟩
  else qZero

/-- Strict order: `a < b`. -/
def qLt (a b : Q) : Bool := decide (a.num * b.den < b.num * a.den)

/-- Value equality of two fractions. -/
def qVeq (a b : Q) : Bool := decide (a.num * b.den = b.num * a.den)

/-- Absolute value. -/
def qAbs (a : Q) : Q := ⟨|a.num|, a.den, a.dpos⟩

/-- `Math.max` on two numbers. -/
def qMax (a b : Q) : Q := if qLt a b then b else a

/-- Floor of the fraction. -/
def qFloor (a : Q) : ℤ := Int.fdiv a.num a.den

/-- Interpretation of `Q` in `ℚ` (used only in proofs). -/
def toRat (a : Q) : ℚ := (a.num : ℚ) / (a.den : ℚ)

/-! ### Color value engine (`provideDocumentColors` / `provideColorPresentations`) -/

/-- Decimal digits `\d`. -/
def isDigitChar (c : Char) : Bool := c.isDigit

/-- Hex digits `[0-9a-fA-F]`. -/
def isHexDigitChar (c : Char) : Bool :=
  c.isDigit || decide ('a' ≤ c ∧ c ≤ 'f') || decide ('A' ≤ c ∧ c ≤ 'F')

/-- Value of a digit string read in base `b`. -/
def digitsVal (b : ℕ) (s : Str) : ℕ :=
  s.foldl (fun acc c => acc * b + (if c.isDigit then c.toNat - 48
    else if decide ('a' ≤ c ∧ c ≤ 'f') then c.toNat - 87 else c.toNat - 55)) 0

/-- Exact value of a numeric token of the shape `[+-]? \d* (. \d+)?`
(the only shapes `parseFloat` receives from the matchers below). -/
def parseDec (t : Str) : Q :=
  let body := fun (r : Str) =>
    let ip := r.takeWhile isDigitChar
    let rest := r.drop ip.length
    match rest with
    | '.' :: fr =>
      let fp := fr.takeWhile isDigitChar
      qAdd (qNat (digitsVal 10 ip)) (qDiv (qNat (digitsVal 10 fp)) (qNat (10 ^ fp.length)))
    | _ => qNat (digitsVal 10 ip)
  match t with
  | '+' :: r => body r
  | '-' :: r => qNeg (body r)
  | r => body r

/-- The IEEE-754 double overflow threshold `2^1024 - 2^970` as an integer
literal (so that it evaluates without unfolding `Monoid.npow`). -/
def dblOverflow : ℤ :=
  179769313486231580793728971405303415079934132710037826936173778980444968292764750946649017977587207096330286416692887910946555547851940402630657488671505820681908902000708383676273854845817711531764475730270069855571366959622842914819860834936475292719074168444365510704342711559699508093042880177904174497792

/-- JavaScript `isFinite` on the result of `parseFloat`: an IEEE-754 double
overflows to `Infinity` exactly when the decimal value is at least
`2^1024 - 2^970` in absolute value. -/
def jsFiniteQ (q : Q) : Bool := qLt (qAbs q) (qInt dblOverflow)

/-- `clamp01` from `extension.ts`. -/
def clamp01 (v : Q) : Q := if qLt v qZero then qZero else if qLt qOne v then qOne else v

/-- Match the number pattern `[+-]?\d*\.?\d+` at the head of the string,
returning the token and the remainder.  The regex engine's backtracking
(`\d*` giving back a digit so `\d+` can succeed) is accounted for: a token
is an optional sign, then digits with at most one interior/leading dot,
always ending in a digit. -/
def matchNumAt (s : Str) : Option (Str × Str) :=
  let noSign := fun (r : Str) =>
    let ds1 := r.takeWhile isDigitChar
    let r1 := r.drop ds1.length
    match r1 with
    | '.' :: r2 =>
      let ds2 := r2.takeWhile isDigitChar
      if ds2.isEmpty then
        if ds1.isEmpty then none else some (ds1, r1)
      else some (ds1 ++ '.' :: ds2, r2.drop ds2.length)
    | _ => if ds1.isEmpty then none else some (ds1, r1)
  match s with
  | '+' :: r => (noSign r).map (fun p => ('+' :: p.1, p.2))
  | '-' :: r => (noSign r).map (fun p => ('-' :: p.1, p.2))
  | r => noSign r

/-- Generic `regex.exec` loop: repeatedly try a matcher that consumes at
least one character, advancing one character on failure.  The fuel is the
string length, which is enough because every step consumes at least one
character. -/
def scanAll (step : Str → Option (α × Str)) : ℕ → ℕ → Str → List (ℕ × ℕ × α)
  | 0, _, _ => []
  | Nat.succ f, pos, s =>
    match s with
    | [] => []
    | _ :: tl =>
      match step s with
      | some (a, rest) =>
        let len := s.length - rest.length
        (pos, len, a) :: scanAll step f (pos + len) rest
      | none => scanAll step f (pos + 1) tl

/-- A single match of the tuple regex
`\(\s*n\s*,\s*n\s*,\s*n(?:\s*,\s*n)?\s*\)`: start offset, matched length,
and the 3 or 4 component tokens. -/
structure TupleMatch where
  start : ℕ
  len : ℕ
  comps : List Str
deriving DecidableEq

/-- Match the tuple regex at the head of the string. -/
def matchTupleAt (s : Str) : Option (List Str × Str) :=
  match s with
  | '(' :: r0 =>
    match matchNumAt (r0.dropWhile isJsWs) with
    | none => none
    | some (n1, r2) =>
      match r2.dropWhile isJsWs with
      | ',' :: r4 =>
        match matchNumAt (r4.dropWhile isJsWs) with
        | none => none
        | some (n2, r6) =>
          match r6.dropWhile isJsWs with
          | ',' :: r8 =>
            match matchNumAt (r8.dropWhile isJsWs) with
            | none => none
            | some (n3, r10) =>
              match r10.dropWhile isJsWs with
              | ',' :: r12 =>
                match matchNumAt (r12.dropWhile isJsWs) with
                | none => none
                | some (n4, r14) =>
                  match r14.dropWhile isJsWs with
                  | ')' :: r15 => some ([n1, n2, n3, n4], r15)
                  | _ => none
              | ')' :: r15 => some ([n1, n2, n3], r15)
              | _ => none
          | _ => none
      | _ => none
  | _ => none

/-- All tuple matches on a line (`while ((m = tupleRe.exec(line)))`). -/
def scanTuples (line : Str) : List TupleMatch :=
  (scanAll matchTupleAt line.length 0 line).map (fun p => ⟨p.1, p.2.1, p.2.2⟩)

/-- A single match of `#([0-9a-fA-F]{6})([0-9a-fA-F]{2})?`. -/
structure HexMatch where
  start : ℕ
  len : ℕ
  hex6 : Str
  hexA : Option Str
deriving DecidableEq

/-- Match the hex regex at the head of the string. -/
def matchHexAt (s : Str) : Option ((Str × Option Str) × Str) :=
  match s with
  | '#' :: r =>
    let h6 := r.take 6
    if h6.length = 6 ∧ h6.all isHexDigitChar then
      let r6 := r.drop 6
      let h2 := r6.take 2
      if h2.length = 2 ∧ h2.all isHexDigitChar then some ((h6, some h2), r6.drop 2)
      else some ((h6, none), r6)
    else none
  | _ => none

/-- All hex matches on a line. -/
def scanHexes (line : Str) : List HexMatch :=
  (scanAll matchHexAt line.length 0 line).map (fun p => ⟨p.1, p.2.1, p.2.2.1, p.2.2.2⟩)

/-- Normalised RGBA color, channels as exact rationals (`vscode.Color`). -/
structure Rgba where
  red : Q
  green : Q
  blue : Q
  alpha : Q
deriving DecidableEq

/-- Channel-wise value equality of two colors. -/
def rgbaVeq (a b : Rgba) : Bool :=
  qVeq a.red b.red && qVeq a.green b.green && qVeq a.blue b.blue && qVeq a.alpha b.alpha

/-- Element-wise value equality of two color lists. -/
def rgbaListVeq : List Rgba → List Rgba → Bool
  | [], [] => true
  | a :: as_, b :: bs => rgbaVeq a b && rgbaListVeq as_ bs
  | _, _ => false

/-- A detected color literal: character range on its line plus the color
(`vscode.ColorInformation` restricted to one line). -/
structure ColorInfo where
  start : ℕ
  stop : ℕ
  color : Rgba
deriving DecidableEq

/-- Channel conversion of the tuple branch of `provideDocumentColors`:
`scale255 = Math.max(r, g, b, aRaw) > 1.0`, divide by 255 when set, then
`clamp01` every channel. -/
def tupleRgba (r g b aRaw : Q) : Rgba :=
  let scale255 : Bool := qLt qOne (qMax (qMax r g) (qMax b aRaw))
  ⟨clamp01 (if scale255 then qDiv r (qInt 255) else r),
   clamp01 (if scale255 then qDiv g (qInt 255) else g),
   clamp01 (if scale255 then qDiv b (qInt 255) else b),
   clamp01 (if scale255 then qDiv aRaw (qInt 255) else aRaw)⟩

/-- The tuple branch of `provideDocumentColors` for one match: parse the
components (`aRaw` defaults to 1 when the fourth group is absent), skip the
match if any component is non-finite, otherwise build the color. -/
def tupleColor? (m : TupleMatch) : Option ColorInfo :=
  match m.comps with
  | [rs, gs, bs] =>
    let r := parseDec rs; let g := parseDec gs; let b := parseDec bs
    if jsFiniteQ r ∧ jsFiniteQ g ∧ jsFiniteQ b ∧ jsFiniteQ qOne then
      some ⟨m.start, m.start + m.len, tupleRgba r g b qOne⟩
    else none
  | [rs, gs, bs, as_] =>
    let r := parseDec rs; let g := parseDec gs; let b := parseDec bs
    let aRaw := parseDec as_
    if jsFiniteQ r ∧ jsFiniteQ g ∧ jsFiniteQ b ∧ jsFiniteQ aRaw then
      some ⟨m.start, m.start + m.len, tupleRgba r g b aRaw⟩
    else none
  | _ => none

/-- Whether every component of a tuple match parses as a finite number
(with the defaulted alpha); `false` for malformed arities. -/
def tupleFinite (m : TupleMatch) : Bool :=
  match m.comps with
  | [rs, gs, bs] =>
    jsFiniteQ (parseDec rs) && jsFiniteQ (parseDec gs) && jsFiniteQ (parseDec bs) &&
      jsFiniteQ qOne
  | [rs, gs, bs, as_] =>
    jsFiniteQ (parseDec rs) && jsFiniteQ (parseDec gs) && jsFiniteQ (parseDec bs) &&
      jsFiniteQ (parseDec as_)
  | _ => false

/-- The hex branch of `provideDocumentColors` for one match. -/
def hexColor? (m : HexMatch) : Option ColorInfo :=
  let rr := qDiv (qNat (digitsVal 16 (m.hex6.take 2))) (qInt 255)
  let gg := qDiv (qNat (digitsVal 16 ((m.hex6.drop 2).take 2))) (qInt 255)
  let bb := qDiv (qNat (digitsVal 16 (m.hex6.drop 4))) (qInt 255)
  let aa := match m.hexA with
    | some h2 => qDiv (qNat (digitsVal 16 h2)) (qInt 255)
    | none => qOne
  if jsFiniteQ rr ∧ jsFiniteQ gg ∧ jsFiniteQ bb ∧ jsFiniteQ aa then
    some ⟨m.start, m.start + m.len, ⟨clamp01 rr, clamp01 gg, clamp01 bb, clamp01 aa⟩⟩
  else none

/-- Word characters `\w` = `[A-Za-z0-9_]`. -/
def isWordChar (c : Char) : Bool := c.isAlpha || c.isDigit || c = '_'

/-- The shared key regex `^\s*([A-Za-z_][\w]*)(\[\])?\s*:` used by both the
color engine and the validator, returning the captured key. -/
def keyReMatch (line : Str) : Option Str :=
  match line.dropWhile isJsWs with
  | [] => none
  | c :: rest =>
    if isKeyStart c then
      let run := rest.takeWhile isWordChar
      let rest2 := rest.drop run.length
      let colonAfter := fun (r : Str) =>
        match r.dropWhile isJsWs with
        | ':' :: _ => true
        | _ => false
      match rest2 with
      | '[' :: ']' :: r3 => if colonAfter r3 then some (c :: run) else none
      | _ => if colonAfter rest2 then some (c :: run) else none
    else none

/-- Substring test. -/
def containsSub (needle : Str) : Str → Bool
  | [] => startsWith needle []
  | c :: rest => startsWith needle (c :: rest) || containsSub needle rest

/-- ASCII lower-casing (`String.prototype.toLowerCase`). -/
def toLowerStr (s : Str) : Str := s.map Char.toLower

/-- The guard `/colou?r/i.test(key)`. -/
def isColorKey (key : Str) : Bool :=
  containsSub "color".data (toLowerStr key) || containsSub "colour".data (toLowerStr key)

/-- All colors detected on one line by `provideDocumentColors`: skip
comment/blank lines and lines without a color-ish key, then scan tuples and
hex codes. -/
def provideLineColors (line : Str) : List ColorInfo :=
  if isCommentOrEmpty line then []
  else
    match keyReMatch line with
    | none => []
    | some key =>
      if isColorKey key then
        (scanTuples line).filterMap tupleColor? ++ (scanHexes line).filterMap hexColor?
      else []

/-- `provideDocumentColors` over a whole document, tagging each color with
its line number. -/
def provideDocumentColors (lines : List Str) : List (ℕ × ColorInfo) :=
  (List.zip (List.range lines.length) lines).foldr
    (fun p acc => (provideLineColors p.2).map (fun ci => (p.1, ci)) ++ acc) []

/-! ### Color presentations (`provideColorPresentations`) -/

/-- All number tokens in a string (`original.match(/[+-]?\d*\.?\d+/g)`). -/
def matchNumbers (s : Str) : List Str :=
  (scanAll matchNumAt s.length 0 s).map (fun p => p.2.2)

/-- `has255`: at least three number tokens and one of the first four
exceeds 1. -/
def has255Of (original : Str) : Bool :=
  let mm := matchNumbers original
  if mm.length < 3 then false
  else (mm.take 4).any (fun t => qLt qOne (parseDec t))

/-- `hadTupleAlpha`: at least four number tokens and the text starts
with an open parenthesis. -/
def hadTupleAlphaOf (original : Str) : Bool :=
  let mm := matchNumbers original
  decide (mm.length ≥ 4) && startsWith "(".data original

/-- `hadHexAlpha`: `/#(?:[0-9a-fA-F]{8})/.test(original)`. -/
def hadHexAlphaOf : Str → Bool
  | [] => false
  | c :: r =>
    (c = '#' && decide ((r.take 8).length = 8) && (r.take 8).all isHexDigitChar) ||
      hadHexAlphaOf r

/-- `Math.round`: round half toward positive infinity. -/
def jsRound (x : Q) : ℤ := qFloor (qAdd x (qMk 1 2))

/-- `to255`: `Math.round(clamp01(v) * 255)`. -/
def to255 (v : Q) : ℤ := jsRound (qMul (clamp01 v) (qInt 255))

/-- Decimal digits of `n`, most significant first (empty for 0). -/
def natToDecGo : ℕ → ℕ → Str
  | 0, _ => []
  | Nat.succ f, n => if n = 0 then [] else natToDecGo f (n / 10) ++ [Char.ofNat (48 + n % 10)]

/-- Decimal rendering of a natural number. -/
def natToDec (n : ℕ) : Str := if n = 0 then ['0'] else natToDecGo n n

/-- Decimal rendering of an integer (template `${n}` for an integer). -/
def intToDec (i : ℤ) : Str := if i < 0 then '-' :: natToDec (-i).toNat else natToDec i.toNat

/-- Upper-case hex digit. -/
def hexDigitUpper (n : ℕ) : Char := if n < 10 then Char.ofNat (48 + n) else Char.ofNat (55 + n)

/-- Upper-case hex digits of `n`, most significant first (empty for 0). -/
def natToHexGo : ℕ → ℕ → Str
  | 0, _ => []
  | Nat.succ f, n => if n = 0 then [] else natToHexGo f (n / 16) ++ [hexDigitUpper (n % 16)]

/-- `n.toString(16).toUpperCase()` for a natural number. -/
def natToHex (n : ℕ) : Str := if n = 0 then ['0'] else natToHexGo n n

/-- `padStart(2, "0")`. -/
def padStart2Zero (s : Str) : Str :=
  if s.length < 2 then List.replicate (2 - s.length) '0' ++ s else s

/-- `hex2`: `n.toString(16).toUpperCase().padStart(2, "0")` (the values fed
to it are always in `[0, 255]`). -/
def hex2 (n : ℤ) : Str := padStart2Zero (natToHex n.toNat)

/-- `fmtFloat`: `v.toFixed(6)` — fixed six decimal places, rounding to the
nearest (the tie behaviour of the binary double never matters for the
channel values handled here). -/
def fmtFloat (q : Q) : Str :=
  let nn := fun (p : Q) =>
    let n := (jsRound (qMul p (qInt 1000000))).toNat
    natToDec (n / 1000000) ++ '.' :: (List.replicate (6 - (natToDec (n % 1000000)).length) '0' ++
      natToDec (n % 1000000))
  if qLt q qZero then '-' :: nn (qNeg q) else nn q

/-- Tuple presentation without alpha: `(r, g, b)`, integers when `has255`. -/
def tupleLabelRGB (has255 : Bool) (c : Rgba) : Str :=
  if has255 then
    '(' :: (intToDec (to255 c.red) ++ ',' :: ' ' :: intToDec (to255 c.green) ++
      ',' :: ' ' :: intToDec (to255 c.blue) ++ [')'])
  else
    '(' :: (fmtFloat c.red ++ ',' :: ' ' :: fmtFloat c.green ++
      ',' :: ' ' :: fmtFloat c.blue ++ [')'])

/-- Tuple presentation with alpha: `(r, g, b, a)`. -/
def tupleLabelRGBA (has255 : Bool) (c : Rgba) : Str :=
  if has255 then
    '(' :: (intToDec (to255 c.red) ++ ',' :: ' ' :: intToDec (to255 c.green) ++
      ',' :: ' ' :: intToDec (to255 c.blue) ++ ',' :: ' ' :: intToDec (to255 c.alpha) ++ [')'])
  else
    '(' :: (fmtFloat c.red ++ ',' :: ' ' :: fmtFloat c.green ++
      ',' :: ' ' :: fmtFloat c.blue ++ ',' :: ' ' :: fmtFloat c.alpha ++ [')'])

/-- Hex presentation `#RRGGBB`. -/
def hexLabelRGB (c : Rgba) : Str :=
  '#' :: (hex2 (to255 c.red) ++ hex2 (to255 c.green) ++ hex2 (to255 c.blue))

/-- Hex presentation `#RRGGBBAA`. -/
def hexLabelRGBA (c : Rgba) : Str :=
  '#' :: (hex2 (to255 c.red) ++ hex2 (to255 c.green) ++ hex2 (to255 c.blue) ++
    hex2 (to255 c.alpha))

/-- De-duplication by label keeping first occurrences (the `seen` set). -/
def dedupGo (seen : List Str) : List Str → List Str
  | [] => []
  | x :: xs => if x ∈ seen then dedupGo seen xs else x :: dedupGo (x :: seen) xs

/-- `provideColorPresentations`: given the original text under the range
(trimmed by the code) and the picker color, produce the ordered,
de-duplicated presentation labels.  The first label is the default
presentation. -/
def provideColorPresentations (originalRaw : Str) (c : Rgba) : List Str :=
  let original := jsTrim originalRaw
  let preferHex := original.contains '#'
  let has255 := has255Of original
  let hadTupleAlpha := hadTupleAlphaOf original
  let hadHexAlpha := hadHexAlphaOf original
  let tupleRGB := tupleLabelRGB has255 c
  let tupleRGBA := tupleLabelRGBA has255 c
  let hexRGB := hexLabelRGB c
  let hexRGBA := hexLabelRGBA c
  let wantsAlpha := hadTupleAlpha || hadHexAlpha || qLt c.alpha (qMk 999 1000)
  let base :=
    if preferHex then
      [if wantsAlpha then hexRGBA else hexRGB, if wantsAlpha then tupleRGBA else tupleRGB]
    else
      [if wantsAlpha then tupleRGBA else tupleRGB, if wantsAlpha then hexRGBA else hexRGB]
  let extra := if wantsAlpha then [tupleRGB, hexRGB] else [tupleRGBA, hexRGBA]
  dedupGo [] (base ++ extra)

/-- Whether a presentation label textually carries an alpha component:
a tuple with four comma-separated components, or an 8-digit hex code. -/
def hasAlphaComponent (label : Str) : Bool :=
  match label with
  | '(' :: _ => decide ((label.filter (fun d => d = ',')).length = 3)
  | '#' :: _ => decide (label.length = 9)
  | _ => false

/-! ### Resource path resolver (`scsTools.openResource`) -/

/-- Quote characters stripped by `raw.replace(/^['\"]|['\"]$/g, "")`. -/
def isQuoteChar (c : Char) : Bool := c = '\'' || c = '"'

/-- Strip one leading and one trailing quote character. -/
def stripQuotes (raw : Str) : Str :=
  let s1 := match raw with
    | c :: r => if isQuoteChar c then r else raw
    | [] => []
  match s1.reverse with
  | c :: r => if isQuoteChar c then r.reverse else s1
  | [] => s1

/-- `/^[a-zA-Z]:[\/]/`: a Windows drive-letter absolute path. -/
def isDriveAbs (s : Str) : Bool :=
  match s with
  | c :: ':' :: '/' :: _ => c.isAlpha
  | _ => false

/-- Split a path on `/`. -/
def splitSlash : Str → List Str
  | [] => [[]]
  | c :: rest =>
    let r := splitSlash rest
    if c = '/' then [] :: r
    else
      match r with
      | h :: t => (c :: h) :: t
      | [] => [[c]]

/-- Normalise path segments: drop empty and `.` segments, let `..` pop. -/
def normSegs (segs : List Str) : List Str :=
  segs.foldl
    (fun acc seg =>
      if seg.isEmpty ∨ seg = ".".data then acc
      else if seg = "..".data then acc.dropLast
      else acc ++ [seg]) []

/-- `parts.join("/")`. -/
def joinSlash : List Str → Str
  | [] => []
  | [x] => x
  | x :: xs => x ++ '/' :: joinSlash xs

/-- `path.join(a, b)` (POSIX-style model): concatenate with a separator and
normalise, preserving absoluteness of `a`. -/
def pathJoin (a b : Str) : Str :=
  let segs := normSegs (splitSlash (a ++ '/' :: b))
  if startsWith "/".data a then '/' :: joinSlash segs else joinSlash segs

/-- `path.resolve(base, p)` (POSIX-style model, `base` absolute): `p` wins
when absolute, otherwise resolve against `base`. -/
def pathResolve (base p : Str) : Str :=
  if startsWith "/".data p then '/' :: joinSlash (normSegs (splitSlash p))
  else '/' :: joinSlash (normSegs (splitSlash (base ++ '/' :: p)))

/-- Candidate construction of the `scsTools.openResource` handler: clean the
raw string, then build the priority-ordered candidate list (drive-absolute /
SCS-absolute / relative branches).  The relative branch pushes the
`fromDir` resolution twice when the raw path starts with `./` or `../`. -/
def openResourceCandidates (raw fromDir modRoot : Str) (gameDataRoot : Option Str) :
    List Str :=
  let cleaned := stripQuotes raw
  if cleaned.isEmpty then []
  else if isDriveAbs cleaned then [cleaned]
  else if startsWith "/".data cleaned then
    let rel := cleaned.drop 1
    pathJoin modRoot rel ::
      (match gameDataRoot with
       | some g => [pathJoin g rel]
       | none => [])
  else
    (if startsWith "./".data cleaned || startsWith "../".data cleaned then
      [pathResolve fromDir cleaned]
     else []) ++
    pathResolve fromDir cleaned :: pathJoin modRoot cleaned ::
      (match gameDataRoot with
       | some g => [pathJoin g cleaned]
       | none => [])

/-- The probing loop: first candidate for which the existence test
succeeds (`fs.existsSync && isFile`, short-circuiting). -/
def probeFirst (existsFile : Str → Bool) (cands : List Str) : Option Str :=
  cands.find? existsFile

/-! ### Key validator (`validate`) -/

/-- Characters that terminate the basename (`/`, plus `\` for Windows
`document.fileName`s). -/
def isPathSep (c : Char) : Bool := c = '/' || c = '\\'

/-- The basename part of a path. -/
def afterLastSep (s : Str) : Str := (s.reverse.takeWhile (fun c => !isPathSep c)).reverse

/-- `path.extname`: the suffix of the basename from its last dot, empty when
there is no dot or the only dot is the leading (hidden-file) dot. -/
def extname (s : Str) : Str :=
  let b := afterLastSep s
  if b = ".".data ∨ b = "..".data then []
  else
    let d := b.reverse.dropWhile (fun c => !(c = '.'))
    if d.length ≤ 1 then []
    else '.' :: (b.reverse.takeWhile (fun c => !(c = '.'))).reverse

/-- First index at which `needle` occurs in the string (`String.indexOf`),
`none` when absent. -/
def indexOfSub (needle : Str) : Str → Option ℕ
  | [] => if startsWith needle [] then some 0 else none
  | c :: rest =>
    if startsWith needle (c :: rest) then some 0
    else (indexOfSub needle rest).map (fun i => i + 1)

/-- A validator finding: the unknown key and its column span. -/
structure Finding where
  key : Str
  startCol : ℕ
  stopCol : ℕ
deriving DecidableEq

/-- The per-line body of `validate`: skip comments/blanks, directives,
`SiiNunit`, brace lines; report a keyed line whose key is not in the
vocabulary at the key's column span (`text.indexOf(key)`, which always
finds the key since the regex matched it after leading whitespace). -/
def findingOfLine (vocab : List Str) (text : Str) : Option Finding :=
  if isCommentOrEmpty text then none
  else
    let t := jsTrim text
    if startsWith "@".data t then none
    else if startsWith "SiiNunit".data t then none
    else if startsWith "\x7b".data t || startsWith "\x7d".data t then none
    else
      match keyReMatch text with
      | none => none
      | some key =>
        if key ∈ vocab then none
        else
          let i := (indexOfSub key text).getD 0
          some ⟨key, i, i + key.length⟩

/-- `validate` from `extension.ts`: only `scs`-language documents whose
lower-cased extension is `.sii` are validated (and only when diagnostics
are enabled); all other documents yield no findings. -/
def validate (languageId fileName : Str) (enableDiagnostics : Bool) (vocab : List Str)
    (lines : List Str) : List (ℕ × Finding) :=
  if ¬ (languageId = "scs".data) then []
  else if ¬ (toLowerStr (extname fileName) = ".sii".data) then []
  else if ¬ (enableDiagnostics = true) then []
  else
    (List.zip (List.range lines.length) lines).foldr
      (fun p acc =>
        match findingOfLine vocab p.2 with
        | some f => (p.1, f) :: acc
        | none => acc) []

/-! ### Auxiliary predicates used by the theorems -/

/-- Every carriage return in the string is immediately followed by a line
feed (i.e. the string has no stray CR outside CRLF pairs). -/
def noStrayCR : Str → Bool
  | [] => true
  | '\r' :: '\n' :: rest => noStrayCR rest
  | '\r' :: _ => false
  | _ :: rest => noStrayCR rest

/-- A well-indented output line: blank, or the configured indent unit
repeated a whole number of times followed by content that does not start
with whitespace. -/
def GoodLine (indent : Str) (l : Str) : Prop :=
  l = [] ∨ ∃ (k : ℕ) (c : Char) (r : Str), l = repeatN indent k ++ c :: r ∧ isJsWs c = false

/-- Well-formedness of a buffered key/value entry: its captured indent is a
whole number of indent units and its key starts with a key character. -/
def KVWf (indent : Str) (e : KV) : Prop :=
  (∃ k : ℕ, e.indentStr = repeatN indent k) ∧
    ∃ (c : Char) (r : Str), e.key = c :: r ∧ isKeyStart c = true

/-- The formatter-state invariant for C9: the nesting level is
non-negative, every emitted line is well indented, and every buffered
entry is well formed. -/
def FmtInv (opts : FormatOpts) (s : FmtState) : Prop :=
  0 ≤ s.level ∧ (∀ l ∈ s.out, GoodLine opts.indent l) ∧ ∀ e ∈ s.group, KVWf opts.indent e

/-- The formatter-state invariant for C10: no emitted line and no buffered
fragment contains a carriage return. -/
def CRInv (s : FmtState) : Prop :=
  (∀ l ∈ s.out, '\r' ∉ l) ∧
    ∀ e ∈ s.group, '\r' ∉ e.indentStr ∧ '\r' ∉ e.key ∧ '\r' ∉ e.value

/-- Scale inference as the amended specification words it: if any of the
four components (alpha defaulting to 1 when absent) exceeds 1.0, every
component including alpha is divided by 255, otherwise all components are
kept; every channel is then clamped to `[0, 1]`.  This is the spec-side
formulation compared against the code's `tupleRgba`. -/
def specTupleScale (r g b a : Q) : Rgba :=
  if qLt qOne r || qLt qOne g || qLt qOne b || qLt qOne a then
    ⟨clamp01 (qDiv r (qInt 255)), clamp01 (qDiv g (qInt 255)),
     clamp01 (qDiv b (qInt 255)), clamp01 (qDiv a (qInt 255))⟩
  else
    ⟨clamp01 r, clamp01 g, clamp01 b, clamp01 a⟩

end ScsToolkit

namespace ScsToolkit

/-! ## Theorems -/

/-! ### Lemmas about `Q` -/

theorem q_den_pos_rat (a : Q) : (0 : ℚ) < (a.den : ℚ) := by
  exact_mod_cast a.dpos

theorem qLt_iff (a b : Q) : qLt a b = true ↔ toRat a < toRat b := by
  unfold qLt toRat
  rw [decide_eq_true_eq, div_lt_div_iff₀ (q_den_pos_rat a) (q_den_pos_rat b)]
  exact_mod_cast Iff.rfl

theorem toRat_qMax (a b : Q) : toRat (qMax a b) = max (toRat a) (toRat b) := by
  unfold qMax
  by_cases h : qLt a b = true
  · rw [if_pos h, max_eq_right (le_of_lt ((qLt_iff a b).mp h))]
  · have hle : toRat b ≤ toRat a := by
      by_contra hc
      exact h ((qLt_iff a b).mpr (lt_of_not_le hc))
    rw [if_neg (by simp [h]), max_eq_left hle]

theorem qLt_qMax (x a b : Q) : qLt x (qMax a b) = (qLt x a || qLt x b) := by
  rw [Bool.eq_iff_iff, Bool.or_eq_true, qLt_iff, qLt_iff, qLt_iff, toRat_qMax, lt_max_iff]

/-- The code's four-way `Math.max` scale test agrees with the amended
spec's component-wise disjunction. -/
theorem scale_cond_eq (r g b a : Q) :
    qLt qOne (qMax (qMax r g) (qMax b a)) =
      (qLt qOne r || qLt qOne g || qLt qOne b || qLt qOne a) := by
  rw [qLt_qMax, qLt_qMax, qLt_qMax]
  simp [Bool.or_assoc]

/-- The code's channel conversion coincides with the amended spec's. -/
theorem tupleRgba_eq_spec (r g b a : Q) : tupleRgba r g b a = specTupleScale r g b a := by
  unfold tupleRgba specTupleScale
  rw [scale_cond_eq]
  by_cases h : (qLt qOne r || qLt qOne g || qLt qOne b || qLt qOne a) = true
  · simp only [h, if_true]
  · simp only [Bool.not_eq_true] at h
    simp only [h, Bool.false_eq_true, if_false]

/-- A tuple match with a non-finite component is skipped. -/
theorem tupleColor?_none_of_nonfinite (m : TupleMatch) (hm : tupleFinite m = false) :
    tupleColor? m = none := by
  rcases m with ⟨st, ln, comps⟩
  match comps with
  | [] => rfl
  | [x] => rfl
  | [x, y] => rfl
  | [rs, gs, bs] =>
    simp only [tupleFinite, Bool.and_eq_false_iff] at hm
    show (if jsFiniteQ (parseDec rs) = true ∧ jsFiniteQ (parseDec gs) = true ∧
        jsFiniteQ (parseDec bs) = true ∧ jsFiniteQ qOne = true then
        some (⟨st, st + ln,
          tupleRgba (parseDec rs) (parseDec gs) (parseDec bs) qOne⟩ : ColorInfo)
      else none) = none
    have hno : ¬(jsFiniteQ (parseDec rs) = true ∧ jsFiniteQ (parseDec gs) = true ∧
        jsFiniteQ (parseDec bs) = true ∧ jsFiniteQ qOne = true) := by
      rintro ⟨h1, h2, h3, h4⟩
      rcases hm with ((h | h) | h) | h <;> simp_all
    rw [if_neg hno]
  | [rs, gs, bs, as_] =>
    simp only [tupleFinite, Bool.and_eq_false_iff] at hm
    show (if jsFiniteQ (parseDec rs) = true ∧ jsFiniteQ (parseDec gs) = true ∧
        jsFiniteQ (parseDec bs) = true ∧ jsFiniteQ (parseDec as_) = true then
        some (⟨st, st + ln,
          tupleRgba (parseDec rs) (parseDec gs) (parseDec bs) (parseDec as_)⟩ : ColorInfo)
      else none) = none
    have hno : ¬(jsFiniteQ (parseDec rs) = true ∧ jsFiniteQ (parseDec gs) = true ∧
        jsFiniteQ (parseDec bs) = true ∧ jsFiniteQ (parseDec as_) = true) := by
      rintro ⟨h1, h2, h3, h4⟩
      rcases hm with ((h | h) | h) | h <;> simp_all
    rw [if_neg hno]
  | x :: y :: z :: w :: v :: rest => rfl

/-- `filterMap` ignores elements the function rejects, so filtering them
away first changes nothing. -/
theorem filterMap_eq_filterMap_filter {α β : Type} (f : α → Option β) (p : α → Bool)
    (h : ∀ x, p x = false → f x = none) (l : List α) :
    l.filterMap f = (l.filter p).filterMap f := by
  induction l with
  | nil => rfl
  | cons a t ih =>
    cases hp : p a with
    | true => simp [List.filter_cons, hp, List.filterMap_cons, ih]
    | false => simp [List.filter_cons, hp, List.filterMap_cons, h a hp, ih]

/-- C1.  The spec requires the formatter to be idempotent for every options
bundle, but with `alignColons = true` and `maxEmptyLines = 0` it is not: the
first pass deletes the blank line separating two key/value groups, so the
second pass merges them into one alignment group and pads the first key. -/
theorem scs_c1_format_not_idempotent :
    formatScsText ⟨true, false, true, 0, true, true, "\t".data⟩
        (formatScsText ⟨true, false, true, 0, true, true, "\t".data⟩
          "a: 1\n\nlongkey: 2".data) ≠
      formatScsText ⟨true, false, true, 0, true, true, "\t".data⟩ "a: 1\n\nlongkey: 2".data ∧
    formatScsText ⟨true, false, true, 0, true, true, "\t".data⟩ "a: 1\n\nlongkey: 2".data =
      "a: 1\nlongkey: 2".data ∧
    formatScsText ⟨true, false, true, 0, true, true, "\t".data⟩ "a: 1\nlongkey: 2".data =
      "a      : 1\nlongkey: 2".data := by
  refine ⟨?_, by decide, by decide⟩
  decide

/-- C3 counterexample.  The root-declaration line `SiiNunit \x7b` is an
unrecognized (non-key-value) line, yet the formatter rewrites it to the bare
token `SiiNunit`, dropping the open brace from its content. -/
theorem scs_c3_siinunit_rewritten :
    formatScsText defaultOpts "SiiNunit \x7b".data = "SiiNunit".data ∧
    jsTrim "SiiNunit \x7b".data ≠ "SiiNunit".data := by
  exact ⟨by decide, by decide⟩

/-- C10 counterexample.  A carriage return not followed by a line feed is
not a line separator for `/\r?\n/`, stays inside its line, and survives into
the formatter's output. -/
theorem scs_c10_stray_cr_survives :
    '\r' ∈ formatScsText defaultOpts "a\rb".data := by
  decide

/-- C2 counterexample.  On `interior_color: (0.5, 0, 1.0, 2)` none of the
first three components exceeds 1.0, so the claim predicts the untouched
color `(0.5, 0, 1, 1)`; the code's scale inference also inspects the alpha
component, sees `2 > 1`, and divides every component by 255. -/
theorem scs_c2_alpha_triggers_scaling :
    rgbaListVeq ((provideLineColors "interior_color: (0.5, 0, 1.0, 2)".data).map
        (fun ci => ci.color))
      [⟨qMk 1 510, qMk 0 1, qMk 1 255, qMk 2 255⟩] = true ∧
    rgbaListVeq ((provideLineColors "interior_color: (0.5, 0, 1.0, 2)".data).map
        (fun ci => ci.color))
      [⟨qMk 1 2, qMk 0 1, qMk 1 1, qMk 1 1⟩] = false := by
  exact ⟨by decide, by decide⟩

/-- C4 counterexample.  For the original literal `#FF00CC` (no alpha) and a
picker color whose alpha is `0.9995 ≠ 1`, the claim requires the default
presentation to carry an alpha component; the code's threshold is
`alpha < 0.999`, so the default presentation stays `#FF00CC` without one. -/
theorem scs_c4_near_one_alpha_dropped :
    hasAlphaComponent
        ((provideColorPresentations "#FF00CC".data
            ⟨qInt 1, qInt 0, qMk 204 255, qMk 1999 2000⟩).headD []) = false ∧
    qVeq (qMk 1999 2000) qOne = false ∧
    (provideColorPresentations "#FF00CC".data
        ⟨qInt 1, qInt 0, qMk 204 255, qMk 1999 2000⟩).headD [] = "#FF00CC".data := by
  exact ⟨by decide, by decide, by decide⟩

/-- C7.  A document whose lower-cased file extension is not `.sii` produces
no validator findings, whatever the language id, vocabulary, diagnostics
flag and content. -/
theorem scs_c7_validator_scoping (languageId fileName : Str) (en : Bool)
    (vocab : List Str) (lines : List Str)
    (h : toLowerStr (extname fileName) ≠ ".sii".data) :
    validate languageId fileName en vocab lines = [] := by
  unfold validate
  by_cases h1 : languageId = "scs".data
  · simp [h1, h]
  · simp [h1]

/-- Witness for C7 at a concrete `.sui` document. -/
theorem scs_c7_validator_scoping_witness :
    validate "scs".data "/def/ui.sui".data true [] ["weird_key: 1".data] = [] :=
  scs_c7_validator_scoping _ _ _ _ _ (by decide)

/-- C6.  For a cleaned relative raw path (not drive-letter absolute, not
starting with `/`), the candidate list is the `fromDir` resolution —
duplicated identically when the path starts with `./` or `../` — then
`modRoot` joined with the path, then `gameDataRoot` joined with it when
configured. -/
theorem scs_c6_relative_candidates (raw fromDir modRoot : Str) (gdr : Option Str)
    (h0 : (stripQuotes raw).isEmpty = false)
    (h1 : isDriveAbs (stripQuotes raw) = false)
    (h2 : startsWith "/".data (stripQuotes raw) = false) :
    openResourceCandidates raw fromDir modRoot gdr =
      (if startsWith "./".data (stripQuotes raw) || startsWith "../".data (stripQuotes raw) then
        [pathResolve fromDir (stripQuotes raw), pathResolve fromDir (stripQuotes raw)]
      else [pathResolve fromDir (stripQuotes raw)]) ++
      pathJoin modRoot (stripQuotes raw) ::
        (match gdr with
         | some g => [pathJoin g (stripQuotes raw)]
         | none => []) := by
  unfold openResourceCandidates
  simp only [h0, h1, h2, Bool.false_eq_true, if_false]
  split <;> simp

/-- Witness for C6: a quoted `./`-relative path with a configured game-data
root; the first candidate is probed twice. -/
theorem scs_c6_relative_candidates_witness :
    openResourceCandidates "'./def/a.sii'".data "/w/src".data "/m".data (some "/g".data) =
      ["/w/src/def/a.sii".data, "/w/src/def/a.sii".data, "/m/def/a.sii".data,
        "/g/def/a.sii".data] := by
  have h := scs_c6_relative_candidates "'./def/a.sii'".data "/w/src".data "/m".data
    (some "/g".data) (by decide) (by decide) (by decide)
  rw [h]
  decide

/-- C2 (amended).  Scale inference inspects all four components including
the (possibly defaulted) alpha: `tupleRgba` — the code's conversion —
coincides with `specTupleScale`, which divides every component by 255 when
any of the four exceeds 1.0 and otherwise keeps them, clamping each channel;
and every tuple match with finite components produces exactly that color. -/
theorem scs_c2_scale_uses_all_components :
    (∀ r g b a : Q, tupleRgba r g b a = specTupleScale r g b a) ∧
    (∀ (m : TupleMatch) (rs gs bs as_ : Str),
      (m.comps = [rs, gs, bs] → tupleFinite m = true →
        tupleColor? m = some ⟨m.start, m.start + m.len,
          specTupleScale (parseDec rs) (parseDec gs) (parseDec bs) qOne⟩) ∧
      (m.comps = [rs, gs, bs, as_] → tupleFinite m = true →
        tupleColor? m = some ⟨m.start, m.start + m.len,
          specTupleScale (parseDec rs) (parseDec gs) (parseDec bs) (parseDec as_)⟩)) := by
  refine ⟨tupleRgba_eq_spec, fun m rs gs bs as_ => ⟨fun hc hf => ?_, fun hc hf => ?_⟩⟩
  · rcases m with ⟨st, ln, comps⟩
    simp only at hc
    subst hc
    simp only [tupleFinite, Bool.and_eq_true] at hf
    show (if jsFiniteQ (parseDec rs) = true ∧ jsFiniteQ (parseDec gs) = true ∧
        jsFiniteQ (parseDec bs) = true ∧ jsFiniteQ qOne = true then
        some (⟨st, st + ln,
          tupleRgba (parseDec rs) (parseDec gs) (parseDec bs) qOne⟩ : ColorInfo)
      else none) = some ⟨st, st + ln,
        specTupleScale (parseDec rs) (parseDec gs) (parseDec bs) qOne⟩
    rw [if_pos ⟨hf.1.1.1, hf.1.1.2, hf.1.2, hf.2⟩, tupleRgba_eq_spec]
  · rcases m with ⟨st, ln, comps⟩
    simp only at hc
    subst hc
    simp only [tupleFinite, Bool.and_eq_true] at hf
    show (if jsFiniteQ (parseDec rs) = true ∧ jsFiniteQ (parseDec gs) = true ∧
        jsFiniteQ (parseDec bs) = true ∧ jsFiniteQ (parseDec as_) = true then
        some (⟨st, st + ln,
          tupleRgba (parseDec rs) (parseDec gs) (parseDec bs) (parseDec as_)⟩ : ColorInfo)
      else none) = some ⟨st, st + ln,
        specTupleScale (parseDec rs) (parseDec gs) (parseDec bs) (parseDec as_)⟩
    rw [if_pos ⟨hf.1.1.1, hf.1.1.2, hf.1.2, hf.2⟩, tupleRgba_eq_spec]

/-- Witness for C2 at the spec's own examples: `(128, 0, 255)` is read as
0–255 and scales to `(128/255, 0, 1)` (the defaulted alpha is also divided,
yielding 1/255), while `(0.5, 0, 1.0)` is kept unchanged. -/
theorem scs_c2_scale_uses_all_components_witness :
    tupleColor? ⟨11, 13, ["128".data, "0".data, "255".data]⟩ =
      some ⟨11, 24, specTupleScale (parseDec "128".data) (parseDec "0".data)
        (parseDec "255".data) qOne⟩ ∧
    rgbaVeq (specTupleScale (parseDec "128".data) (parseDec "0".data) (parseDec "255".data)
      qOne) ⟨qMk 128 255, qZero, qOne, qMk 1 255⟩ = true ∧
    rgbaVeq (specTupleScale (parseDec "0.5".data) (parseDec "0".data) (parseDec "1.0".data)
      qOne) ⟨qMk 1 2, qZero, qOne, qOne⟩ = true := by
  refine ⟨(scs_c2_scale_uses_all_components.2 ⟨11, 13, ["128".data, "0".data, "255".data]⟩
    "128".data "0".data "255".data "255".data).1 rfl (by decide), by decide, by decide⟩

/-- C8.  A tuple match with a non-finite component contributes no color, and
the colors detected from the tuple matches of a line are exactly those of
its finite matches: the failing match is skipped without affecting any
sibling. -/
theorem scs_c8_nonfinite_match_skipped :
    (∀ line : Str,
      (scanTuples line).filterMap tupleColor? =
        ((scanTuples line).filter tupleFinite).filterMap tupleColor?) ∧
    (∀ m : TupleMatch, tupleFinite m = false → tupleColor? m = none) := by
  exact ⟨fun line => filterMap_eq_filterMap_filter _ _ tupleColor?_none_of_nonfinite _,
    tupleColor?_none_of_nonfinite⟩

/-- Witness for C8: a 310-digit literal overflows the double range, its
tuple match is dropped, and the sibling tuple on the same line is still
detected. -/
theorem scs_c8_nonfinite_match_skipped_witness :
    tupleColor? ⟨0, 0, ["1".data ++ List.replicate 309 '0', "0".data, "0".data]⟩ = none ∧
    (scanTuples ("c_color: (".data ++ ("1".data ++ List.replicate 309 '0') ++
        ", 0, 0) (0.5, 0.5, 0.5)".data)).filterMap tupleColor? =
      ((scanTuples ("c_color: (".data ++ ("1".data ++ List.replicate 309 '0') ++
        ", 0, 0) (0.5, 0.5, 0.5)".data)).filter tupleFinite).filterMap tupleColor? ∧
    rgbaListVeq (((scanTuples ("c_color: (".data ++ ("1".data ++ List.replicate 309 '0') ++
        ", 0, 0) (0.5, 0.5, 0.5)".data)).filterMap tupleColor?).map (fun ci => ci.color))
      [⟨qMk 1 2, qMk 1 2, qMk 1 2, qOne⟩] = true := by
  refine ⟨scs_c8_nonfinite_match_skipped.2 _ (by decide),
    scs_c8_nonfinite_match_skipped.1 _, by decide⟩

/-! ### Lemmas about presentation labels (for C4) -/

theorem natToDecGo_digits : ∀ (f n : ℕ), ∀ c ∈ natToDecGo f n, ∃ m, m < 10 ∧
    c = Char.ofNat (48 + m) := by
  intro f
  induction f with
  | zero => intro n c hc; simp [natToDecGo] at hc
  | succ f ih =>
    intro n c hc
    unfold natToDecGo at hc
    by_cases hn : n = 0
    · simp [hn] at hc
    · rw [if_neg hn, List.mem_append] at hc
      rcases hc with hc | hc
      · exact ih _ c hc
      · simp at hc
        exact ⟨n % 10, Nat.mod_lt _ (by norm_num), hc⟩

theorem natToDec_no_comma (n : ℕ) : ∀ c ∈ natToDec n, ¬ (c = ',') := by
  have hdec : ∀ m : ℕ, m < 10 → ¬ (Char.ofNat (48 + m) = ',') := by decide
  intro c hc
  unfold natToDec at hc
  by_cases hn : n = 0
  · rw [if_pos hn] at hc
    simp at hc
    subst hc
    decide
  · rw [if_neg hn] at hc
    obtain ⟨m, hm, hcm⟩ := natToDecGo_digits n n c hc
    subst hcm
    exact hdec m hm

theorem filter_comma_natToDec (n : ℕ) : (natToDec n).filter (fun d => d = ',') = [] := by
  rw [List.filter_eq_nil_iff]
  intro c hc
  simpa using natToDec_no_comma n c hc

theorem filter_comma_fmtFloat (q : Q) : (fmtFloat q).filter (fun d => d = ',') = [] := by
  unfold fmtFloat
  split
  · simp [List.filter_append, filter_comma_natToDec, List.filter_replicate]
  · simp [List.filter_append, filter_comma_natToDec, List.filter_replicate]

theorem filter_comma_intToDec (i : ℤ) : (intToDec i).filter (fun d => d = ',') = [] := by
  unfold intToDec
  split <;> simp [filter_comma_natToDec]

theorem clamp01_num_bounds (v : Q) :
    0 ≤ (clamp01 v).num ∧ (clamp01 v).num ≤ (clamp01 v).den := by
  unfold clamp01
  split_ifs with h1 h2
  · exact ⟨by decide, by decide⟩
  · exact ⟨by decide, by decide⟩
  · simp only [qLt, qZero, qOne, qInt, decide_eq_true_eq] at h1 h2
    constructor <;> omega

theorem to255_bounds (v : Q) : 0 ≤ to255 v ∧ to255 v ≤ 255 := by
  unfold to255 jsRound qFloor qAdd qMul qInt
  have hmk : qMk 1 2 = ⟨1, 2, by norm_num⟩ := rfl
  rw [hmk]
  simp only
  obtain ⟨h0, h1⟩ := clamp01_num_bounds v
  have hd : 0 < (clamp01 v).den := (clamp01 v).dpos
  set n := (clamp01 v).num
  set d := (clamp01 v).den
  have hden : (0 : ℤ) < d * 1 * 2 := by omega
  rw [Int.fdiv_eq_ediv _ (le_of_lt hden)]
  constructor
  · exact Int.ediv_nonneg (by nlinarith) (le_of_lt hden)
  · have : (n * 255 * 2 + 1 * (d * 1)) / (d * 1 * 2) < 256 := by
      apply Int.ediv_lt_of_lt_mul hden
      nlinarith
    omega

theorem hex2_len_of_byte : ∀ n : ℕ, n < 256 → (padStart2Zero (natToHex n)).length = 2 := by
  decide

theorem hex2_to255_length (v : Q) : (hex2 (to255 v)).length = 2 := by
  unfold hex2
  obtain ⟨h0, h1⟩ := to255_bounds v
  exact hex2_len_of_byte (to255 v).toNat (by omega)

theorem hasAlpha_hash (X : Str) :
    hasAlphaComponent ('#' :: X) = decide (('#' :: X).length = 9) := rfl

theorem hasAlpha_paren (X : Str) :
    hasAlphaComponent ('(' :: X) =
      decide ((('(' :: X).filter (fun d => d = ',')).length = 3) := rfl

theorem hasAlpha_hexLabelRGBA (c : Rgba) : hasAlphaComponent (hexLabelRGBA c) = true := by
  unfold hexLabelRGBA
  rw [hasAlpha_hash]
  simp [List.length_append, hex2_to255_length]

theorem hasAlpha_hexLabelRGB (c : Rgba) : hasAlphaComponent (hexLabelRGB c) = false := by
  unfold hexLabelRGB
  rw [hasAlpha_hash]
  simp [List.length_append, hex2_to255_length]

theorem hasAlpha_tupleLabelRGBA (h : Bool) (c : Rgba) :
    hasAlphaComponent (tupleLabelRGBA h c) = true := by
  unfold tupleLabelRGBA
  split <;>
    · rw [hasAlpha_paren]
      simp [List.filter_append, List.filter_cons, filter_comma_fmtFloat,
        filter_comma_intToDec]

theorem hasAlpha_tupleLabelRGB (h : Bool) (c : Rgba) :
    hasAlphaComponent (tupleLabelRGB h c) = false := by
  unfold tupleLabelRGB
  split <;>
    · rw [hasAlpha_paren]
      simp [List.filter_append, List.filter_cons, filter_comma_fmtFloat,
        filter_comma_intToDec]

theorem dedupGo_nil_cons (x : Str) (xs : List Str) :
    dedupGo [] (x :: xs) = x :: dedupGo [x] xs := by
  simp [dedupGo]

/-- C4 (amended).  The default presentation of a color carries an alpha
component exactly when the original literal carried one (the `(...)` tuple
had four numbers, or the hex code had eight digits) or the picker color's
alpha is below the code's 0.999 threshold — not "alpha ≠ 1" as the claim
states. -/
theorem scs_c4_default_alpha_presence (originalRaw : Str) (c : Rgba) :
    hasAlphaComponent ((provideColorPresentations originalRaw c).headD []) =
      (hadTupleAlphaOf (jsTrim originalRaw) || hadHexAlphaOf (jsTrim originalRaw) ||
        qLt c.alpha (qMk 999 1000)) := by
  unfold provideColorPresentations
  simp only
  set wa := hadTupleAlphaOf (jsTrim originalRaw) || hadHexAlphaOf (jsTrim originalRaw) ||
    qLt c.alpha (qMk 999 1000) with hwa
  by_cases hp : '#' ∈ jsTrim originalRaw <;>
    by_cases hw : wa = true <;>
      simp [hp, hw, dedupGo_nil_cons, hasAlpha_hexLabelRGBA, hasAlpha_hexLabelRGB,
        hasAlpha_tupleLabelRGBA, hasAlpha_tupleLabelRGB]

/-! ### String-trimming lemmas (for C3, C5, C9, C10) -/

theorem dropTrailing_cons (q : Char → Bool) (c : Char) (t : Str) :
    dropTrailing q (c :: t) =
      if (dropTrailing q t).isEmpty then (if q c then [] else [c])
      else c :: dropTrailing q t := by
  unfold dropTrailing
  rw [List.reverse_cons, List.dropWhile_append]
  by_cases he : (t.reverse.dropWhile q).isEmpty
  · simp only [he, if_true]
    have he2 : ((t.reverse.dropWhile q).reverse).isEmpty = true := by
      simp only [List.isEmpty_iff] at he ⊢
      simp [he]
    rw [if_pos he2]
    cases hqc : q c <;> simp [List.dropWhile_cons, hqc]
  · simp only [he, if_false]
    have he2 : ¬ ((t.reverse.dropWhile q).reverse).isEmpty = true := by
      simp only [List.isEmpty_iff] at he ⊢
      simpa using he
    rw [if_neg he2]
    simp

theorem dropWhile_dropWhile_of_imp (p q : Char → Bool) (himp : ∀ c, q c = true → p c = true) :
    ∀ x : Str, List.dropWhile p (List.dropWhile q x) = List.dropWhile p x := by
  intro x
  induction x with
  | nil => rfl
  | cons c t ih =>
    cases hq : q c with
    | true =>
      rw [List.dropWhile_cons_of_pos hq, List.dropWhile_cons_of_pos (himp c hq), ih]
    | false => rw [List.dropWhile_cons_of_neg (by simp [hq])]

theorem dropTrailing_dropTrailing (p q : Char → Bool) (himp : ∀ c, q c = true → p c = true)
    (x : Str) : dropTrailing p (dropTrailing q x) = dropTrailing p x := by
  unfold dropTrailing
  rw [List.reverse_reverse, dropWhile_dropWhile_of_imp p q himp]

theorem dropLeading_dropTrailing_comm (p q : Char → Bool) :
    ∀ x : Str, dropLeading p (dropTrailing q x) = dropTrailing q (dropLeading p x) := by
  intro x
  induction x with
  | nil => rfl
  | cons c t ih =>
    rw [dropTrailing_cons]
    cases hp : p c with
    | true =>
      have hL : dropLeading p (c :: t) = dropLeading p t := by
        simp [dropLeading, List.dropWhile_cons, hp]
      rw [hL, ← ih]
      by_cases he : (dropTrailing q t).isEmpty
      · rw [if_pos he]
        have ht : dropTrailing q t = [] := by simpa [List.isEmpty_iff] using he
        rw [ht] at ih ⊢
        cases hq : q c <;> simp [dropLeading, List.dropWhile_cons, hp, ← ih]
      · rw [if_neg he]
        simp [dropLeading, List.dropWhile_cons, hp]
    | false =>
      have hL : dropLeading p (c :: t) = c :: t := by
        simp [dropLeading, List.dropWhile_cons, hp]
      rw [hL, dropTrailing_cons]
      by_cases he : (dropTrailing q t).isEmpty
      · rw [if_pos he]
        cases hq : q c <;> simp [dropLeading, List.dropWhile_cons, hp, hq]
      · rw [if_neg he]
        simp [dropLeading, List.dropWhile_cons, hp]

theorem jsTrim_trimTail (l : Str) : jsTrim (trimTail l) = jsTrim l := by
  unfold jsTrim trimTail
  rw [dropLeading_dropTrailing_comm,
    dropTrailing_dropTrailing isJsWs (fun c => c = ' ' || c = '\t')
      (by
        intro c hc
        have h2 : c = ' ' ∨ c = '\t' := by simpa using hc
        rcases h2 with rfl | rfl <;> decide)]

theorem lineTrimmed_eq_jsTrim (opts : FormatOpts) (l : Str) :
    lineTrimmed opts l = jsTrim l := by
  unfold lineTrimmed
  split
  · exact jsTrim_trimTail l
  · rfl

theorem dropWhile_append_cons (p : Char → Bool) (c : Char) (hc : p c = false) :
    ∀ (X Y : Str), List.dropWhile p (X ++ c :: Y) = List.dropWhile p X ++ c :: Y := by
  intro X Y
  induction X with
  | nil => simp [List.dropWhile_cons, hc]
  | cons x X' ih =>
    cases hx : p x with
    | true => simp [List.dropWhile_cons, hx, ih]
    | false => simp [List.dropWhile_cons, hx]

theorem dropTrailing_append_cons (p : Char → Bool) (c : Char) (hc : p c = false)
    (A Z : Str) : dropTrailing p (A ++ c :: Z) = A ++ c :: dropTrailing p Z := by
  unfold dropTrailing
  rw [List.reverse_append, List.reverse_cons, List.append_assoc, List.singleton_append,
    dropWhile_append_cons p c hc]
  simp

theorem dropTrailing_decomp (p : Char → Bool) (y : Str) :
    ∃ w : Str, y = dropTrailing p y ++ w ∧ ∀ c ∈ w, p c = true := by
  refine ⟨(y.reverse.takeWhile p).reverse, ?_, ?_⟩
  · unfold dropTrailing
    conv =>
      left
      rw [← List.reverse_reverse y]
    rw [← List.reverse_append, List.takeWhile_append_dropWhile]
  · intro c hc
    rw [List.mem_reverse] at hc
    exact List.mem_takeWhile_imp hc

theorem jsTrim_head_not_ws (x : Str) (c : Char) (r : Str) (h : jsTrim x = c :: r) :
    isJsWs c = false := by
  obtain ⟨w, hw, _⟩ := dropTrailing_decomp isJsWs (dropLeading isJsWs x)
  unfold jsTrim at h
  rw [h] at hw
  have : (dropLeading isJsWs x).head? = some c := by
    rw [hw]
    rfl
  have h2 := List.head?_dropWhile_not isJsWs x
  unfold dropLeading at this
  rw [this] at h2
  simpa using h2

theorem startsWith_cons (c : Char) (p t : Str) (h : startsWith (c :: p) t = true) :
    ∃ r, t = c :: r ∧ startsWith p r = true := by
  cases t with
  | nil => simp [startsWith] at h
  | cons d s =>
    simp only [startsWith, Bool.and_eq_true, decide_eq_true_eq] at h
    exact ⟨s, by rw [h.1], h.2⟩

/-! ### Formatter passthrough (for C3 and C5) -/

theorem flushGroup_out (opts : FormatOpts) (s : FmtState) :
    (flushGroup opts s).out = s.out ++ flushLines opts s.group := by
  unfold flushGroup flushLines
  by_cases h : s.group.isEmpty <;> simp [h]

theorem flushGroup_level (opts : FormatOpts) (s : FmtState) :
    (flushGroup opts s).level = s.level := by
  unfold flushGroup
  split <;> rfl

theorem flushGroup_group (opts : FormatOpts) (s : FmtState) :
    (flushGroup opts s).group = [] ∨ (flushGroup opts s).group = s.group := by
  unfold flushGroup
  split
  · right; rfl
  · left; rfl

/-- Any non-blank, non-key/value line that is not one of the `SiiNunit`
forms is emitted verbatim at the current indentation, after the pending
group is flushed. -/
theorem processNonBlank_passthrough (opts : FormatOpts) (s : FmtState) (t : Str)
    (hkv : kvMatch t = none)
    (h1 : t ≠ "SiiNunit".data) (h2 : t ≠ "SiiNunit\x7b".data)
    (h3 : t ≠ "SiiNunit \x7b".data) :
    ∃ k : ℕ, (processNonBlank opts s t).out =
      s.out ++ flushLines opts s.group ++ [repeatN opts.indent k ++ t] := by
  unfold processNonBlank
  simp only
  rw [if_neg (by simp [h1, h2, h3])]
  set lvl : ℤ := if startsWith "\x7d".data t then max 0 (s.level - 1) else s.level with hlvl
  refine ⟨lvl.toNat, ?_⟩
  by_cases hbr : (t = "\x7b".data ∨ t = "\x7d".data ∨ fmtIsComment t = true ∨
      fmtIsDirective t = true)
  · rw [if_pos hbr]
    by_cases hb : endsWithBrace t = true <;>
      simp [hb, flushGroup_out, List.append_assoc]
  · rw [if_neg hbr, hkv]
    by_cases hb : endsWithBrace t = true <;>
      simp [hb, flushGroup_out, List.append_assoc]

/-- Lifting of `processNonBlank_passthrough` to `processLine`. -/
theorem processLine_passthrough (opts : FormatOpts) (s : FmtState) (l : Str)
    (hne : jsTrim l ≠ [])
    (hkv : kvMatch (jsTrim l) = none)
    (h1 : jsTrim l ≠ "SiiNunit".data) (h2 : jsTrim l ≠ "SiiNunit\x7b".data)
    (h3 : jsTrim l ≠ "SiiNunit \x7b".data) :
    ∃ k : ℕ, (processLine opts s l).out =
      s.out ++ flushLines opts s.group ++ [repeatN opts.indent k ++ jsTrim l] := by
  unfold processLine
  simp only [lineTrimmed_eq_jsTrim]
  rw [if_neg (by simpa [List.isEmpty_iff] using hne)]
  exact processNonBlank_passthrough opts { s with emptyRun := 0 } (jsTrim l) hkv h1 h2 h3

theorem cons_ne_of_head (c d : Char) (r s : Str) (h : ¬ c = d) : c :: r ≠ d :: s := by
  intro he
  injection he with h1 _
  exact h h1

theorem kvMatch_none_of_head (c : Char) (rest : Str) (hc : isKeyStart c = false) :
    kvMatch (c :: rest) = none := by
  simp [kvMatch, hc]

theorem keyReMatch_none_of_trim_head (l : Str) (c : Char) (r : Str)
    (hb : jsTrim l = c :: r) (hc : isKeyStart c = false) : keyReMatch l = none := by
  obtain ⟨w, hw, _⟩ := dropTrailing_decomp isJsWs (dropLeading isJsWs l)
  unfold jsTrim at hb
  rw [hb] at hw
  unfold dropLeading at hw
  unfold keyReMatch
  rw [hw]
  simp [hc]

/-- C3 (amended).  Every non-blank input line that is not a key/value line
and not one of the `SiiNunit` root-declaration forms — comments, directives,
`\x7b`/`\x7d` markers, and all other unrecognized lines — is emitted with its
trimmed content unchanged, re-indented as a whole number of indent units,
after the pending alignment group is flushed.  (The `SiiNunit` forms are the
exception the counterexample exhibits: they are rewritten to the bare
`SiiNunit` token.) -/
theorem scs_c3_passthrough_content (opts : FormatOpts) (s : FmtState) (l : Str)
    (hne : jsTrim l ≠ [])
    (hkv : kvMatch (jsTrim l) = none)
    (h1 : jsTrim l ≠ "SiiNunit".data) (h2 : jsTrim l ≠ "SiiNunit\x7b".data)
    (h3 : jsTrim l ≠ "SiiNunit \x7b".data) :
    ∃ k : ℕ, (processLine opts s l).out =
      s.out ++ flushLines opts s.group ++ [repeatN opts.indent k ++ jsTrim l] :=
  processLine_passthrough opts s l hne hkv h1 h2 h3

/-- Witness for C3 at a directive line with leading and trailing blanks. -/
theorem scs_c3_passthrough_content_witness :
    ∃ k : ℕ, (processLine defaultOpts initState "   @include \"x.sui\"  ".data).out =
      initState.out ++ flushLines defaultOpts initState.group ++
        [repeatN defaultOpts.indent k ++ jsTrim "   @include \"x.sui\"  ".data] :=
  scs_c3_passthrough_content defaultOpts initState _ (by decide) (by decide) (by decide)
    (by decide) (by decide)

/-- C5.  A line whose trimmed text starts with `//`, `#`, `/*`, `*` or `*/`
is treated as a comment by every component: the color engine detects no
color on it, the validator reports no finding on it, and the formatter
flushes the pending group and emits the line verbatim at the current
indentation. -/
theorem scs_c5_comment_prefix_skipped (opts : FormatOpts) (s : FmtState)
    (vocab : List Str) (l : Str)
    (hp : startsWith "//".data (jsTrim l) = true ∨ startsWith "#".data (jsTrim l) = true ∨
      startsWith "/*".data (jsTrim l) = true ∨ startsWith "*".data (jsTrim l) = true ∨
      startsWith "*/".data (jsTrim l) = true) :
    provideLineColors l = [] ∧ findingOfLine vocab l = none ∧
    ∃ k : ℕ, (processLine opts s l).out =
      s.out ++ flushLines opts s.group ++ [repeatN opts.indent k ++ jsTrim l] := by
  have main : ∀ (c : Char) (r : Str), jsTrim l = c :: r → isKeyStart c = false →
      ¬ c = 'S' →
      provideLineColors l = [] ∧ findingOfLine vocab l = none ∧
      ∃ k : ℕ, (processLine opts s l).out =
        s.out ++ flushLines opts s.group ++ [repeatN opts.indent k ++ jsTrim l] := by
    intro c r heq hks hcS
    have hkeyre : keyReMatch l = none := keyReMatch_none_of_trim_head l c r heq hks
    refine ⟨?_, ?_, ?_⟩
    · by_cases hce : isCommentOrEmpty l = true <;>
        simp [provideLineColors, hce, hkeyre]
    · by_cases hce : isCommentOrEmpty l = true
      · simp [findingOfLine, hce]
      · simp only [findingOfLine, hce, Bool.false_eq_true, if_false]
        split_ifs <;> simp [hkeyre]
    · have hne : jsTrim l ≠ [] := by rw [heq]; exact List.cons_ne_nil c r
      have hkv : kvMatch (jsTrim l) = none := by rw [heq]; exact kvMatch_none_of_head c r hks
      refine processLine_passthrough opts s l hne hkv ?_ ?_ ?_ <;>
        · rw [heq]; exact cons_ne_of_head _ _ _ _ hcS
  rcases hp with h | h | h | h | h <;>
    obtain ⟨r, heq, -⟩ := startsWith_cons _ _ _ h
  · exact main '/' r heq (by decide) (by decide)
  · exact main '#' r heq (by decide) (by decide)
  · exact main '/' r heq (by decide) (by decide)
  · exact main '*' r heq (by decide) (by decide)
  · exact main '*' r heq (by decide) (by decide)

/-! ### Formatter invariants (for C9) -/

theorem keyStart_not_ws (c : Char) (h : isKeyStart c = true) : isJsWs c = false := by
  by_contra hc
  have hws : isJsWs c = true := by simpa using hc
  simp only [isJsWs, Bool.or_eq_true, decide_eq_true_eq] at hws
  rcases hws with (((((((rfl | rfl) | rfl) | rfl) | rfl) | rfl) | rfl) | rfl) <;>
    exact absurd h (by decide)

theorem keyStart_ne_brace (c : Char) (h : isKeyStart c = true) : ¬ c = '\x7b' := by
  intro hc
  rw [hc] at h
  exact absurd h (by decide)

theorem kvMatch_key_shape (t k v : Str) (h : kvMatch t = some (k, v)) :
    ∃ (c : Char) (r : Str), k = c :: r ∧ isKeyStart c = true := by
  cases t with
  | nil => simp [kvMatch] at h
  | cons c rest =>
    simp only [kvMatch] at h
    by_cases hks : isKeyStart c = true
    · rw [if_pos hks] at h
      refine ⟨c, ?_⟩
      split at h <;> (
        split at h
        · split at h
          · simp at h
          · simp only [Option.some.injEq, Prod.mk.injEq] at h
            exact ⟨_, h.1.symm, hks⟩
        · simp at h)
    · rw [if_neg hks] at h
      simp at h

theorem renderAligned_shape (ind : Str) (w : ℕ) (e : KV) (he : KVWf ind e) :
    ∃ (k : ℕ) (c : Char) (Z : Str),
      renderAligned w e = repeatN ind k ++ c :: Z ∧ isKeyStart c = true := by
  obtain ⟨⟨k, hind⟩, c, r, hkey, hks⟩ := he
  have hmain : renderAligned w e = repeatN ind k ++ c :: dropTrailing isJsWs
      ((r ++ List.replicate (w - (c :: r).length) ' ') ++ ':' :: ' ' :: e.value) := by
    unfold renderAligned padEndSpaces jsTrimEnd
    rw [hind, hkey, ← dropTrailing_append_cons isJsWs c (keyStart_not_ws c hks)]
    congr 1
    simp
  exact ⟨k, c, _, hmain, hks⟩

theorem renderPlain_shape (ind : Str) (e : KV) (he : KVWf ind e) :
    ∃ (k : ℕ) (c : Char) (Z : Str),
      renderPlain e = repeatN ind k ++ c :: Z ∧ isKeyStart c = true := by
  obtain ⟨⟨k, hind⟩, c, r, hkey, hks⟩ := he
  have hmain : renderPlain e = repeatN ind k ++ c :: dropTrailing isJsWs
      (r ++ ':' :: ' ' :: e.value) := by
    unfold renderPlain jsTrimEnd
    rw [hind, hkey, ← dropTrailing_append_cons isJsWs c (keyStart_not_ws c hks)]
    congr 1
    simp
  exact ⟨k, c, _, hmain, hks⟩

theorem goodLine_of_shape (ind : Str) (l : Str)
    (h : ∃ (k : ℕ) (c : Char) (Z : Str), l = repeatN ind k ++ c :: Z ∧ isKeyStart c = true) :
    GoodLine ind l := by
  obtain ⟨k, c, Z, hl, hks⟩ := h
  exact Or.inr ⟨k, c, Z, hl, keyStart_not_ws c hks⟩

theorem flushLines_good (opts : FormatOpts) (g : List KV)
    (hg : ∀ e ∈ g, KVWf opts.indent e) :
    ∀ l ∈ flushLines opts g, GoodLine opts.indent l := by
  intro l hl
  unfold flushLines at hl
  split at hl
  · simp at hl
  · split at hl <;> (
      rw [List.mem_map] at hl
      obtain ⟨e, he, rfl⟩ := hl)
    · exact goodLine_of_shape _ _ (renderAligned_shape _ _ e (hg e he))
    · exact goodLine_of_shape _ _ (renderPlain_shape _ e (hg e he))

theorem modifyLast_concat (f : Str → Str) (Y : List Str) (x : Str) :
    modifyLast f (Y ++ [x]) = Y ++ [f x] := by
  induction Y with
  | nil => rfl
  | cons y Y' ih =>
    cases hY : Y' ++ [x] with
    | nil => exact absurd hY (by simp)
    | cons a as =>
      show modifyLast f (y :: (Y' ++ [x])) = y :: (Y' ++ [f x])
      rw [hY]
      show y :: modifyLast f (a :: as) = y :: (Y' ++ [f x])
      rw [← hY, ih]

theorem fixBraceEnd_shape (A : Str) (c : Char) (Z : Str) (hws : isJsWs c = false)
    (hcb : ¬ c = '\x7b') :
    ∃ Z', fixBraceEnd (A ++ c :: Z) = A ++ c :: Z' := by
  rcases List.eq_nil_or_concat Z with rfl | ⟨Z', a, rfl⟩
  · refine ⟨[], ?_⟩
    unfold fixBraceEnd
    have hrev : (A ++ [c]).reverse = c :: A.reverse := by simp
    rw [hrev]
    split
    · rename_i w hmatch
      injection hmatch with h1 _
      exact absurd h1 hcb
    · rfl
  · rw [List.concat_eq_append]
    by_cases ha : a = '\x7b'
    · subst ha
      refine ⟨dropTrailing isJsWs Z' ++ [' ', '\x7b'], ?_⟩
      unfold fixBraceEnd
      have hrev : (A ++ c :: (Z' ++ ['\x7b'])).reverse =
          '\x7b' :: (Z'.reverse ++ c :: A.reverse) := by simp
      rw [hrev]
      show ((Z'.reverse ++ c :: A.reverse).dropWhile isJsWs).reverse ++ [' ', '\x7b'] = _
      rw [dropWhile_append_cons isJsWs c hws]
      simp [dropTrailing, List.append_assoc]
    · refine ⟨Z' ++ [a], ?_⟩
      unfold fixBraceEnd
      have hrev : (A ++ c :: (Z' ++ [a])).reverse = a :: (Z'.reverse ++ c :: A.reverse) := by
        simp
      rw [hrev]
      split
      · rename_i w hmatch
        injection hmatch with h1 _
        exact absurd h1 ha
      · rfl

theorem inv_out_append (opts : FormatOpts) (s : FmtState) (xs : List Str)
    (h : FmtInv opts s) (hxs : ∀ l ∈ xs, GoodLine opts.indent l) :
    FmtInv opts { s with out := s.out ++ xs } := by
  refine ⟨h.1, ?_, h.2.2⟩
  intro l hl
  rw [List.mem_append] at hl
  rcases hl with hl | hl
  · exact h.2.1 l hl
  · exact hxs l hl

theorem inv_level_succ (opts : FormatOpts) (s : FmtState) (h : FmtInv opts s) :
    FmtInv opts { s with level := s.level + 1 } := by
  refine ⟨?_, h.2.1, h.2.2⟩
  have := h.1
  simp only
  omega

theorem flushGroup_inv (opts : FormatOpts) (s : FmtState) (h : FmtInv opts s) :
    FmtInv opts (flushGroup opts s) := by
  unfold flushGroup
  split
  · exact h
  · refine ⟨h.1, ?_, by simp⟩
    intro l hl
    rw [List.mem_append] at hl
    rcases hl with hl | hl
    · exact h.2.1 l hl
    · exact flushLines_good opts s.group h.2.2 l hl

theorem flushLines_shape_concat (opts : FormatOpts) (G : List KV) (e : KV)
    (hG : ∀ x ∈ G, KVWf opts.indent x) (he : KVWf opts.indent e) :
    ∃ (L : List Str) (x : Str), flushLines opts (G ++ [e]) = L ++ [x] ∧
      (∀ l ∈ L, GoodLine opts.indent l) ∧
      ∃ (k : ℕ) (c : Char) (Z : Str),
        x = repeatN opts.indent k ++ c :: Z ∧ isKeyStart c = true := by
  unfold flushLines
  rw [if_neg (by simp)]
  by_cases ha : opts.alignColons = true
  · rw [if_pos ha, List.map_append]
    refine ⟨_, _, rfl, ?_, renderAligned_shape opts.indent _ e he⟩
    intro l hl
    rw [List.mem_map] at hl
    obtain ⟨e', he', rfl⟩ := hl
    exact goodLine_of_shape _ _ (renderAligned_shape opts.indent _ e' (hG e' he'))
  · rw [if_neg ha, List.map_append]
    refine ⟨_, _, rfl, ?_, renderPlain_shape opts.indent e he⟩
    intro l hl
    rw [List.mem_map] at hl
    obtain ⟨e', he', rfl⟩ := hl
    exact goodLine_of_shape _ _ (renderPlain_shape opts.indent e' (hG e' he'))

/-- Invariant preservation through the key/value branch's final
brace-handling block: flushing a group that ends in a well-formed entry,
patching the last emitted line with `fixBraceEnd`, and bumping the level. -/
theorem inv_kv_brace (opts : FormatOpts) (s2 : FmtState) (G : List KV) (e : KV)
    (h2 : FmtInv opts s2) (hgr : s2.group = G ++ [e])
    (hG : ∀ x ∈ G, KVWf opts.indent x) (he : KVWf opts.indent e) :
    FmtInv opts
      { flushGroup opts s2 with
        out := modifyLast fixBraceEnd (flushGroup opts s2).out,
        level := (flushGroup opts s2).level + 1 } := by
  obtain ⟨L, x, hfl, hLgood, k, c, Z, hx, hksx⟩ := flushLines_shape_concat opts G e hG he
  have hout : (flushGroup opts s2).out = s2.out ++ (L ++ [x]) := by
    rw [flushGroup_out, hgr, hfl]
  have hmod : modifyLast fixBraceEnd (flushGroup opts s2).out =
      (s2.out ++ L) ++ [fixBraceEnd x] := by
    rw [hout, ← List.append_assoc, modifyLast_concat]
  obtain ⟨Z', hfx⟩ := fixBraceEnd_shape (repeatN opts.indent k) c Z
    (keyStart_not_ws c hksx) (keyStart_ne_brace c hksx)
  refine ⟨?_, ?_, ?_⟩
  · have := h2.1
    have hlev := flushGroup_level opts s2
    simp only
    omega
  · intro l hl
    simp only [hmod] at hl
    rw [List.mem_append] at hl
    rcases hl with hl | hl
    · rw [List.mem_append] at hl
      rcases hl with hl | hl
      · exact h2.2.1 l hl
      · exact hLgood l hl
    · simp at hl
      subst hl
      rw [hx, hfx]
      exact goodLine_of_shape _ _ ⟨k, c, Z', rfl, hksx⟩
  · intro x2 hx2
    simp only at hx2
    rcases flushGroup_group opts s2 with hgg | hgg
    · rw [hgg] at hx2
      simp at hx2
    · rw [hgg, hgr] at hx2
      rw [List.mem_append] at hx2
      rcases hx2 with hx2 | hx2
      · exact hG x2 hx2
      · simp at hx2
        subst hx2
        exact he

theorem processNonBlank_inv (opts : FormatOpts) (s : FmtState) (t : Str)
    (c0 : Char) (r0 : Str) (ht : t = c0 :: r0) (hws0 : isJsWs c0 = false)
    (h : FmtInv opts s) : FmtInv opts (processNonBlank opts s t) := by
  obtain ⟨hlv, hout, hgrp⟩ := h
  unfold processNonBlank
  simp only
  set lvl : ℤ :=
    ite (startsWith "\x7d".data t = true) (max 0 (s.level - 1)) s.level with hlvl
  have hlv1 : 0 ≤ lvl := by rw [hlvl]; split <;> omega
  have h1 : FmtInv opts { s with level := lvl } := ⟨hlv1, hout, hgrp⟩
  by_cases hsii : (t = "SiiNunit".data ∨ t = "SiiNunit\x7b".data ∨ t = "SiiNunit \x7b".data)
  · rw [if_pos hsii]
    exact inv_out_append opts _ ["SiiNunit".data] (flushGroup_inv opts _ h1) (by
      intro l hl
      simp at hl
      subst hl
      exact Or.inr ⟨0, 'S', "iiNunit".data, rfl, by decide⟩)
  · rw [if_neg hsii]
    by_cases hbr : (t = "\x7b".data ∨ t = "\x7d".data ∨ fmtIsComment t = true ∨
        fmtIsDirective t = true)
    · rw [if_pos hbr]
      have h3 := inv_out_append opts _ [repeatN opts.indent lvl.toNat ++ t]
        (flushGroup_inv opts _ h1) (by
          intro l hl
          simp at hl
          subst hl
          exact Or.inr ⟨lvl.toNat, c0, r0, by rw [ht], hws0⟩)
      by_cases hb : endsWithBrace t = true
      · rw [if_pos hb]
        exact inv_level_succ opts _ h3
      · rw [if_neg hb]
        exact h3
    · rw [if_neg hbr]
      cases hm : kvMatch t with
      | none =>
        have h3 := inv_out_append opts _ [repeatN opts.indent lvl.toNat ++ t]
          (flushGroup_inv opts _ h1) (by
            intro l hl
            simp at hl
            subst hl
            exact Or.inr ⟨lvl.toNat, c0, r0, by rw [ht], hws0⟩)
        by_cases hb : endsWithBrace t = true
        · rw [if_pos hb]
          exact inv_level_succ opts _ h3
        · rw [if_neg hb]
          exact h3
      | some kv =>
        obtain ⟨key, v0⟩ := kv
        obtain ⟨ck, rk, hkey, hksk⟩ := kvMatch_key_shape t key v0 hm
        simp only
        set value : Str :=
          ite (opts.spaceAfterCommaInTuples = true) (normTuple v0) v0 with hval
        set entry : KV := ⟨repeatN opts.indent lvl.toNat, key, value, lvl⟩ with hentry
        have hewf : KVWf opts.indent entry := ⟨⟨lvl.toNat, rfl⟩, ck, rk, hkey, hksk⟩
        cases hgl : s.groupLevel with
        | none =>
          simp only []
          have h2 : FmtInv opts
              { s with level := lvl, groupLevel := some lvl, group := s.group ++ [entry] } := by
            refine ⟨hlv1, hout, ?_⟩
            intro x hx
            rw [List.mem_append] at hx
            rcases hx with hx | hx
            · exact hgrp x hx
            · simp at hx
              subst hx
              exact hewf
          by_cases hvb : endsWithBrace value = true
          · rw [if_pos hvb]
            exact inv_kv_brace opts _ s.group entry h2 rfl hgrp hewf
          · rw [if_neg hvb]
            exact h2
        | some gl =>
          simp only []
          by_cases hgleq : gl = lvl
          · rw [if_pos hgleq]
            have h2 : FmtInv opts
                { s with level := lvl, group := s.group ++ [entry], groupLevel := some gl } := by
              refine ⟨hlv1, hout, ?_⟩
              intro x hx
              rw [List.mem_append] at hx
              rcases hx with hx | hx
              · exact hgrp x hx
              · simp at hx
                subst hx
                exact hewf
            by_cases hvb : endsWithBrace value = true
            · rw [if_pos hvb]
              exact inv_kv_brace opts _ s.group entry h2 rfl hgrp hewf
            · rw [if_neg hvb]
              exact h2
          · rw [if_neg hgleq]
            have hfi := flushGroup_inv opts { s with level := lvl, groupLevel := some gl }
              ⟨hlv1, hout, hgrp⟩
            have h2 : FmtInv opts
                { flushGroup opts { s with level := lvl, groupLevel := some gl } with groupLevel := some lvl, group := [entry] } := by
              refine ⟨?_, hfi.2.1, ?_⟩
              · have := hfi.1
                simpa using this
              · intro x hx
                simp at hx
                subst hx
                exact hewf
            by_cases hvb : endsWithBrace value = true
            · rw [if_pos hvb]
              exact inv_kv_brace opts _ [] entry h2 rfl (by simp) hewf
            · rw [if_neg hvb]
              exact h2

theorem processLine_inv (opts : FormatOpts) (s : FmtState) (l : Str)
    (h : FmtInv opts s) : FmtInv opts (processLine opts s l) := by
  unfold processLine
  simp only
  by_cases he : (lineTrimmed opts l).isEmpty = true
  · rw [if_pos he]
    have h1 := flushGroup_inv opts s h
    by_cases her : (flushGroup opts s).emptyRun + 1 ≤ opts.maxEmptyLines
    · rw [if_pos her]
      refine ⟨h1.1, ?_, h1.2.2⟩
      intro x hx
      rw [List.mem_append] at hx
      rcases hx with hx | hx
      · exact h1.2.1 x hx
      · simp at hx
        subst hx
        exact Or.inl rfl
    · rw [if_neg her]
      exact ⟨h1.1, h1.2.1, h1.2.2⟩
  · rw [if_neg he]
    have hne : lineTrimmed opts l ≠ [] := by simpa [List.isEmpty_iff] using he
    obtain ⟨c0, r0, ht⟩ : ∃ c0 r0, lineTrimmed opts l = c0 :: r0 := by
      cases hh : lineTrimmed opts l with
      | nil => exact absurd hh hne
      | cons a b => exact ⟨a, b, rfl⟩
    have hws0 : isJsWs c0 = false :=
      jsTrim_head_not_ws l c0 r0 (by rw [← lineTrimmed_eq_jsTrim opts l]; exact ht)
    exact processNonBlank_inv opts { s with emptyRun := 0 } _ c0 r0 ht hws0
      ⟨h.1, h.2.1, h.2.2⟩

theorem foldl_inv (opts : FormatOpts) :
    ∀ (ls : List Str) (s : FmtState), FmtInv opts s →
      FmtInv opts (ls.foldl (processLine opts) s) := by
  intro ls
  induction ls with
  | nil => intro s h; exact h
  | cons l t ih => intro s h; exact ih _ (processLine_inv opts s l h)

/-- C9.  Throughout any formatting pass (equivalently, after any list of
input lines, since every prefix of a document is itself such a list) the
nesting level is non-negative — decrements are floored at 0 — and every
non-blank output line consists of the configured indent unit repeated a
whole number of times followed by content that does not start with
whitespace. -/
theorem scs_c9_level_nonneg_and_indent_shape (opts : FormatOpts) (ls : List Str) :
    0 ≤ (runFmt opts ls).level ∧
    ∀ l ∈ (flushGroup opts (runFmt opts ls)).out, GoodLine opts.indent l := by
  have h : FmtInv opts (runFmt opts ls) :=
    foldl_inv opts ls initState ⟨by decide, by simp [initState], by simp [initState]⟩
  exact ⟨h.1, (flushGroup_inv opts _ h).2.1⟩

/-- Witness for C9 on a small nested document: the final level is
non-negative and the emitted key/value line at depth 1 is shaped
`indent-unit ++ content`. -/
theorem scs_c9_level_nonneg_and_indent_shape_witness :
    0 ≤ (runFmt defaultOpts ["a \x7b".data, "b: 1".data, "\x7d".data]).level ∧
    GoodLine defaultOpts.indent "\tb: 1".data :=
  ⟨(scs_c9_level_nonneg_and_indent_shape defaultOpts
      ["a \x7b".data, "b: 1".data, "\x7d".data]).1,
   (scs_c9_level_nonneg_and_indent_shape defaultOpts
      ["a \x7b".data, "b: 1".data, "\x7d".data]).2 "\tb: 1".data (by decide)⟩

/-! ### Carriage-return propagation (for C10) -/

theorem splitLines_ne_nil (s : Str) : splitLines s ≠ [] := by
  cases s with
  | nil => simp [splitLines]
  | cons c rest =>
    unfold splitLines
    split
    · simp
    · simp
    · simp
    · split <;> simp

theorem splitLines_noCR_aux : ∀ (n : ℕ) (s : Str), s.length ≤ n → noStrayCR s = true →
    ∀ l ∈ splitLines s, '\r' ∉ l := by
  intro n
  induction n with
  | zero =>
    intro s hs h l hl
    have hnil : s = [] := by
      cases s with
      | nil => rfl
      | cons c t => simp at hs
    subst hnil
    simp [splitLines] at hl
    subst hl
    simp
  | succ n ih =>
    intro s hs h l hl
    cases s with
    | nil =>
      simp [splitLines] at hl
      subst hl
      simp
    | cons c rest =>
      by_cases hc : c = '\r'
      · subst hc
        cases rest with
        | nil => simp [noStrayCR] at h
        | cons c2 rest2 =>
          by_cases hc2 : c2 = '\n'
          · subst hc2
            simp only [splitLines] at hl
            simp only [noStrayCR] at h
            rcases List.mem_cons.mp hl with rfl | hl
            · simp
            · exact ih rest2 (by simp at hs; omega) h l hl
          · exfalso
            unfold noStrayCR at h
            split at h
            · rename_i heq
              simp at heq
            · rename_i heq
              injection heq with _ htl
              injection htl with hh _
              exact hc2 hh
            · simp at h
            · rename_i hne heq
              injection heq with hh _
              exact hne hh.symm
      · have hrest : noStrayCR rest = true := by
          unfold noStrayCR at h
          split at h
          · rename_i heq
            simp at heq
          · rename_i heq
            injection heq with hh _
            exact absurd hh hc
          · simp at h
          · rename_i heq
            injection heq with _ htl
            rw [htl]
            exact h
        by_cases hcn : c = '\n'
        · subst hcn
          simp only [splitLines] at hl
          rcases List.mem_cons.mp hl with rfl | hl
          · simp
          · exact ih rest (by simp at hs; omega) hrest l hl
        · have hred : splitLines (c :: rest) =
              match splitLines rest with
              | h :: t => (c :: h) :: t
              | [] => [[c]] := by
            conv_lhs => rw [splitLines.eq_def]
            split
            · rename_i heq
              simp at heq
            · rename_i heq
              injection heq with hh _
              exact absurd hh hc
            · rename_i heq
              injection heq with hh _
              exact absurd hh hcn
            · rename_i heq
              injection heq with hh htl
              rw [hh, htl]
          rw [hred] at hl
          cases hsp : splitLines rest with
          | nil => exact absurd hsp (splitLines_ne_nil rest)
          | cons hd tl =>
            rw [hsp] at hl
            have hhd : '\r' ∉ hd :=
              ih rest (by simp at hs; omega) hrest hd (by rw [hsp]; simp)
            rcases List.mem_cons.mp hl with rfl | hl
            · intro hcr
              rcases List.mem_cons.mp hcr with hcr | hcr
              · exact hc hcr.symm
              · exact hhd hcr
            · exact ih rest (by simp at hs; omega) hrest l (by rw [hsp]; simp [hl])

theorem splitLines_noCR (s : Str) (h : noStrayCR s = true) :
    ∀ l ∈ splitLines s, '\r' ∉ l :=
  splitLines_noCR_aux s.length s le_rfl h

theorem mem_dropTrailing {p : Char → Bool} {c : Char} {l : Str}
    (h : c ∈ dropTrailing p l) : c ∈ l := by
  unfold dropTrailing at h
  rw [List.mem_reverse] at h
  exact List.mem_reverse.mp (List.dropWhile_subset p h)

theorem mem_jsTrim {c : Char} {l : Str} (h : c ∈ jsTrim l) : c ∈ l := by
  unfold jsTrim dropLeading at h
  exact List.dropWhile_subset isJsWs (mem_dropTrailing h)

theorem mem_jsTrimEnd {c : Char} {l : Str} (h : c ∈ jsTrimEnd l) : c ∈ l :=
  mem_dropTrailing h

theorem mem_lineTrimmed {c : Char} (opts : FormatOpts) {l : Str}
    (h : c ∈ lineTrimmed opts l) : c ∈ l := by
  unfold lineTrimmed at h
  split at h
  · exact mem_dropTrailing (mem_jsTrim h)
  · exact mem_jsTrim h

theorem repeatN_noCR (ind : Str) (hind : '\r' ∉ ind) : ∀ k, '\r' ∉ repeatN ind k := by
  intro k
  induction k with
  | zero => simp [repeatN]
  | succ k ih =>
    simp only [repeatN, List.mem_append]
    rintro (hc | hc)
    · exact hind hc
    · exact ih hc

theorem joinNl_noCR (ls : List Str) (h : ∀ l ∈ ls, '\r' ∉ l) : '\r' ∉ joinNl ls := by
  induction ls with
  | nil => simp [joinNl]
  | cons x t ih =>
    cases t with
    | nil =>
      show '\r' ∉ x
      exact h x (by simp)
    | cons y t2 =>
      show '\r' ∉ x ++ '\n' :: joinNl (y :: t2)
      simp only [List.mem_append, List.mem_cons]
      rintro (hc | hc | hc)
      · exact h x (by simp) hc
      · simp at hc
      · exact ih (fun l hl => h l (List.mem_cons_of_mem x hl)) hc

theorem kvMatch_noCR (t k v : Str) (h : kvMatch t = some (k, v)) :
    '\r' ∉ k ∧ '\r' ∉ v := by
  cases t with
  | nil => simp [kvMatch] at h
  | cons c rest =>
    simp only [kvMatch] at h
    by_cases hks : isKeyStart c = true
    · rw [if_pos hks] at h
      have hcr : ¬ c = '\r' := by
        intro hc
        rw [hc] at hks
        exact absurd hks (by decide)
      have hrun : ∀ x ∈ rest.takeWhile isKvKeyChar, ¬ x = '\r' := by
        intro x hx hxc
        subst hxc
        have := List.mem_takeWhile_imp hx
        exact absurd this (by decide)
      split at h
      · split at h
        · split at h
          · simp at h
          · rename_i hvcr
            simp only [Option.some.injEq, Prod.mk.injEq] at h
            obtain ⟨hk, hv⟩ := h
            constructor
            · subst hk
              intro hmem
              simp only [List.mem_cons, List.mem_append] at hmem
              rcases hmem with hmem | hmem | hmem
              · exact hcr hmem.symm
              · exact hrun '\r' hmem rfl
              · simp at hmem
            · subst hv
              intro hmem
              have hmem2 := mem_jsTrimEnd hmem
              exact absurd (by simpa using hmem2) (by simpa using hvcr)
        · simp at h
      · split at h
        · split at h
          · simp at h
          · rename_i hvcr
            simp only [Option.some.injEq, Prod.mk.injEq] at h
            obtain ⟨hk, hv⟩ := h
            constructor
            · subst hk
              intro hmem
              simp only [List.mem_cons] at hmem
              rcases hmem with hmem | hmem
              · exact hcr hmem.symm
              · exact hrun '\r' hmem rfl
            · subst hv
              intro hmem
              have hmem2 := mem_jsTrimEnd hmem
              exact absurd (by simpa using hmem2) (by simpa using hvcr)
        · simp at h
    · rw [if_neg hks] at h
      simp at h

theorem splitComma_mem (x : Char) : ∀ (s : Str) (part : Str),
    part ∈ splitComma s → x ∈ part → x ∈ s := by
  intro s
  induction s with
  | nil =>
    intro part hp hx
    simp [splitComma] at hp
    subst hp
    simp at hx
  | cons c rest ih =>
    intro part hp hx
    simp only [splitComma] at hp
    by_cases hc : c = ','
    · rw [if_pos hc] at hp
      rcases List.mem_cons.mp hp with rfl | hp
      · simp at hx
      · exact List.mem_cons_of_mem c (ih part hp hx)
    · rw [if_neg hc] at hp
      cases hsp : splitComma rest with
      | nil =>
        rw [hsp] at hp
        simp at hp
        subst hp
        simp at hx
        subst hx
        simp
      | cons hd tl =>
        rw [hsp] at hp
        rcases List.mem_cons.mp hp with rfl | hp
        · rcases List.mem_cons.mp hx with rfl | hx
          · simp
          · exact List.mem_cons_of_mem c (ih hd (by rw [hsp]; simp) hx)
        · exact List.mem_cons_of_mem c (ih part (by rw [hsp]; simp [hp]) hx)

theorem joinCommaSpace_mem (x : Char) : ∀ (parts : List Str),
    x ∈ joinCommaSpace parts → (∃ p ∈ parts, x ∈ p) ∨ x = ',' ∨ x = ' ' := by
  intro parts
  induction parts with
  | nil =>
    intro hx
    simp [joinCommaSpace] at hx
  | cons p rest ih =>
    intro hx
    cases rest with
    | nil => exact Or.inl ⟨p, by simp, hx⟩
    | cons q rest2 =>
      have hx2 : x ∈ p ++ ',' :: ' ' :: joinCommaSpace (q :: rest2) := hx
      rw [List.mem_append] at hx2
      rcases hx2 with hx2 | hx2
      · exact Or.inl ⟨p, by simp, hx2⟩
      · rcases List.mem_cons.mp hx2 with rfl | hx2
        · exact Or.inr (Or.inl rfl)
        · rcases List.mem_cons.mp hx2 with rfl | hx2
          · exact Or.inr (Or.inr rfl)
          · rcases ih hx2 with ⟨pp, hpp, hxp⟩ | hr
            · exact Or.inl ⟨pp, List.mem_cons_of_mem p hpp, hxp⟩
            · exact Or.inr hr

theorem normTuple_noCR (v : Str) (hv : '\r' ∉ v) : '\r' ∉ normTuple v := by
  unfold normTuple
  split
  · rename_i rest
    split
    · rename_i mid heq
      intro hc
      simp only [List.mem_cons, List.mem_append] at hc
      rcases hc with hc | hc | hc | hc
      · simp at hc
      · rcases joinCommaSpace_mem '\r' _ hc with ⟨p, hp, hxp⟩ | hr
        · rw [List.mem_map] at hp
          obtain ⟨p0, hp0, rfl⟩ := hp
          have hin : '\r' ∈ mid.reverse := splitComma_mem '\r' mid.reverse p0 hp0 (mem_jsTrim hxp)
          have hrest : '\r' ∈ rest := by
            have hm : '\r' ∈ mid := List.mem_reverse.mp hin
            have hrr : '\r' ∈ rest.reverse := by rw [heq]; simp [hm]
            exact List.mem_reverse.mp hrr
          exact hv (List.mem_cons_of_mem '(' hrest)
        · rcases hr with hr | hr <;> simp at hr
      · simp at hc
      · simp at hc
    · exact hv
  · exact hv

theorem renderAligned_noCR (w : ℕ) (e : KV) (h1 : '\r' ∉ e.indentStr)
    (h2 : '\r' ∉ e.key) (h3 : '\r' ∉ e.value) : '\r' ∉ renderAligned w e := by
  intro hc
  have hm := mem_jsTrimEnd hc
  rcases List.mem_append.mp hm with hm | hm
  · rcases List.mem_append.mp hm with hm | hm
    · exact h1 hm
    · unfold padEndSpaces at hm
      rcases List.mem_append.mp hm with hm | hm
      · exact h2 hm
      · have := List.eq_of_mem_replicate hm
        simp at this
  · rcases List.mem_cons.mp hm with hm | hm
    · simp at hm
    · rcases List.mem_cons.mp hm with hm | hm
      · simp at hm
      · exact h3 hm

theorem renderPlain_noCR (e : KV) (h1 : '\r' ∉ e.indentStr)
    (h2 : '\r' ∉ e.key) (h3 : '\r' ∉ e.value) : '\r' ∉ renderPlain e := by
  intro hc
  have hm := mem_jsTrimEnd hc
  rcases List.mem_append.mp hm with hm | hm
  · rcases List.mem_append.mp hm with hm | hm
    · exact h1 hm
    · exact h2 hm
  · rcases List.mem_cons.mp hm with hm | hm
    · simp at hm
    · rcases List.mem_cons.mp hm with hm | hm
      · simp at hm
      · exact h3 hm

theorem flushLines_noCR (opts : FormatOpts) (g : List KV)
    (hg : ∀ e ∈ g, '\r' ∉ e.indentStr ∧ '\r' ∉ e.key ∧ '\r' ∉ e.value) :
    ∀ l ∈ flushLines opts g, '\r' ∉ l := by
  intro l hl
  unfold flushLines at hl
  split at hl
  · simp at hl
  · split at hl <;> (
      rw [List.mem_map] at hl
      obtain ⟨e, he, rfl⟩ := hl)
    · exact renderAligned_noCR _ e (hg e he).1 (hg e he).2.1 (hg e he).2.2
    · exact renderPlain_noCR e (hg e he).1 (hg e he).2.1 (hg e he).2.2

theorem flushGroup_cr (opts : FormatOpts) (s : FmtState) (h : CRInv s) :
    CRInv (flushGroup opts s) := by
  unfold flushGroup
  split
  · exact h
  · refine ⟨?_, by simp⟩
    intro l hl
    rw [List.mem_append] at hl
    rcases hl with hl | hl
    · exact h.1 l hl
    · exact flushLines_noCR opts s.group h.2 l hl

theorem cr_out_append (s : FmtState) (xs : List Str) (h : CRInv s)
    (hxs : ∀ l ∈ xs, '\r' ∉ l) : CRInv { s with out := s.out ++ xs } := by
  refine ⟨?_, h.2⟩
  intro l hl
  rw [List.mem_append] at hl
  rcases hl with hl | hl
  · exact h.1 l hl
  · exact hxs l hl

theorem fixBraceEnd_noCR (s : Str) (h : '\r' ∉ s) : '\r' ∉ fixBraceEnd s := by
  unfold fixBraceEnd
  split
  · rename_i w hmatch
    intro hc
    rw [List.mem_append] at hc
    rcases hc with hc | hc
    · have hw : '\r' ∈ w := List.dropWhile_subset isJsWs (List.mem_reverse.mp hc)
      have hrev : '\r' ∈ s.reverse := by rw [hmatch]; simp [hw]
      exact h (List.mem_reverse.mp hrev)
    · simp at hc
  · exact h

theorem mem_modifyLast (f : Str → Str) : ∀ (L : List Str) (x : Str),
    x ∈ modifyLast f L → x ∈ L ∨ ∃ y ∈ L, x = f y := by
  intro L
  induction L with
  | nil =>
    intro x hx
    simp [modifyLast] at hx
  | cons a t ih =>
    intro x hx
    cases t with
    | nil =>
      have hx2 : x ∈ [f a] := hx
      simp at hx2
      exact Or.inr ⟨a, by simp, hx2⟩
    | cons b t2 =>
      have hx2 : x ∈ a :: modifyLast f (b :: t2) := hx
      rcases List.mem_cons.mp hx2 with rfl | hx2
      · exact Or.inl (by simp)
      · rcases ih x hx2 with hm | ⟨y, hy, rfl⟩
        · exact Or.inl (List.mem_cons_of_mem a hm)
        · exact Or.inr ⟨y, List.mem_cons_of_mem a hy, rfl⟩

theorem cr_kv_brace (opts : FormatOpts) (s2 : FmtState) (h2 : CRInv s2) :
    CRInv
      { flushGroup opts s2 with
        out := modifyLast fixBraceEnd (flushGroup opts s2).out,
        level := (flushGroup opts s2).level + 1 } := by
  have hf := flushGroup_cr opts s2 h2
  refine ⟨?_, hf.2⟩
  intro l hl
  rcases mem_modifyLast fixBraceEnd _ l hl with hm | ⟨y, hy, rfl⟩
  · exact hf.1 l hm
  · exact fixBraceEnd_noCR y (hf.1 y hy)

theorem processNonBlank_cr (opts : FormatOpts) (s : FmtState) (t : Str)
    (htc : '\r' ∉ t) (hind : '\r' ∉ opts.indent)
    (h : CRInv s) : CRInv (processNonBlank opts s t) := by
  obtain ⟨hout, hgrp⟩ := h
  unfold processNonBlank
  simp only
  set lvl : ℤ :=
    ite (startsWith "\x7d".data t = true) (max 0 (s.level - 1)) s.level with hlvl
  have h1 : CRInv { s with level := lvl } := ⟨hout, hgrp⟩
  have hindstr : '\r' ∉ repeatN opts.indent lvl.toNat := repeatN_noCR opts.indent hind _
  by_cases hsii : (t = "SiiNunit".data ∨ t = "SiiNunit\x7b".data ∨ t = "SiiNunit \x7b".data)
  · rw [if_pos hsii]
    exact cr_out_append _ ["SiiNunit".data] (flushGroup_cr opts _ h1) (by
      intro l hl
      simp at hl
      subst hl
      decide)
  · rw [if_neg hsii]
    have hpass : ∀ l ∈ [repeatN opts.indent lvl.toNat ++ t], '\r' ∉ l := by
      intro l hl
      simp at hl
      subst hl
      intro hc
      rw [List.mem_append] at hc
      rcases hc with hc | hc
      · exact hindstr hc
      · exact htc hc
    by_cases hbr : (t = "\x7b".data ∨ t = "\x7d".data ∨ fmtIsComment t = true ∨
        fmtIsDirective t = true)
    · rw [if_pos hbr]
      have h3 := cr_out_append _ [repeatN opts.indent lvl.toNat ++ t]
        (flushGroup_cr opts _ h1) hpass
      by_cases hb : endsWithBrace t = true
      · rw [if_pos hb]
        exact ⟨h3.1, h3.2⟩
      · rw [if_neg hb]
        exact h3
    · rw [if_neg hbr]
      cases hm : kvMatch t with
      | none =>
        have h3 := cr_out_append _ [repeatN opts.indent lvl.toNat ++ t]
          (flushGroup_cr opts _ h1) hpass
        by_cases hb : endsWithBrace t = true
        · rw [if_pos hb]
          exact ⟨h3.1, h3.2⟩
        · rw [if_neg hb]
          exact h3
      | some kv =>
        obtain ⟨key, v0⟩ := kv
        obtain ⟨hkcr, hvcr⟩ := kvMatch_noCR t key v0 hm
        simp only
        set value : Str :=
          ite (opts.spaceAfterCommaInTuples = true) (normTuple v0) v0 with hval
        have hvalcr : '\r' ∉ value := by
          rw [hval]
          split
          · exact normTuple_noCR v0 hvcr
          · exact hvcr
        set entry : KV := ⟨repeatN opts.indent lvl.toNat, key, value, lvl⟩ with hentry
        have hecr : '\r' ∉ entry.indentStr ∧ '\r' ∉ entry.key ∧ '\r' ∉ entry.value :=
          ⟨hindstr, hkcr, hvalcr⟩
        cases hgl : s.groupLevel with
        | none =>
          simp only []
          have h2 : CRInv
              { s with level := lvl, groupLevel := some lvl, group := s.group ++ [entry] } := by
            refine ⟨hout, ?_⟩
            intro x hx
            rw [List.mem_append] at hx
            rcases hx with hx | hx
            · exact hgrp x hx
            · simp at hx
              subst hx
              exact hecr
          by_cases hvb : endsWithBrace value = true
          · rw [if_pos hvb]
            exact cr_kv_brace opts _ h2
          · rw [if_neg hvb]
            exact h2
        | some gl =>
          simp only []
          by_cases hgleq : gl = lvl
          · rw [if_pos hgleq]
            have h2 : CRInv
                { s with level := lvl, group := s.group ++ [entry], groupLevel := some gl } := by
              refine ⟨hout, ?_⟩
              intro x hx
              rw [List.mem_append] at hx
              rcases hx with hx | hx
              · exact hgrp x hx
              · simp at hx
                subst hx
                exact hecr
            by_cases hvb : endsWithBrace value = true
            · rw [if_pos hvb]
              exact cr_kv_brace opts _ h2
            · rw [if_neg hvb]
              exact h2
          · rw [if_neg hgleq]
            have hfi := flushGroup_cr opts { s with level := lvl, groupLevel := some gl }
              ⟨hout, hgrp⟩
            have h2 : CRInv
                { flushGroup opts { s with level := lvl, groupLevel := some gl } with groupLevel := some lvl, group := [entry] } := by
              refine ⟨hfi.1, ?_⟩
              intro x hx
              simp at hx
              subst hx
              exact hecr
            by_cases hvb : endsWithBrace value = true
            · rw [if_pos hvb]
              exact cr_kv_brace opts _ h2
            · rw [if_neg hvb]
              exact h2

theorem processLine_cr (opts : FormatOpts) (s : FmtState) (l : Str)
    (hl : '\r' ∉ l) (hind : '\r' ∉ opts.indent) (h : CRInv s) :
    CRInv (processLine opts s l) := by
  unfold processLine
  simp only
  by_cases he : (lineTrimmed opts l).isEmpty = true
  · rw [if_pos he]
    have h1 := flushGroup_cr opts s h
    by_cases her : (flushGroup opts s).emptyRun + 1 ≤ opts.maxEmptyLines
    · rw [if_pos her]
      refine ⟨?_, h1.2⟩
      intro x hx
      rw [List.mem_append] at hx
      rcases hx with hx | hx
      · exact h1.1 x hx
      · simp at hx
        subst hx
        simp
    · rw [if_neg her]
      exact ⟨h1.1, h1.2⟩
  · rw [if_neg he]
    exact processNonBlank_cr opts { s with emptyRun := 0 } _
      (fun hc => hl (mem_lineTrimmed opts hc)) hind ⟨h.1, h.2⟩

theorem foldl_cr (opts : FormatOpts) (hind : '\r' ∉ opts.indent) :
    ∀ (ls : List Str) (s : FmtState), (∀ l ∈ ls, '\r' ∉ l) → CRInv s →
      CRInv (ls.foldl (processLine opts) s) := by
  intro ls
  induction ls with
  | nil =>
    intro s _ h
    exact h
  | cons l t ih =>
    intro s hls h
    exact ih _ (fun x hx => hls x (List.mem_cons_of_mem l hx))
      (processLine_cr opts s l (hls l (by simp)) hind h)

/-- C10, amended.  When every carriage return of the input is part of a
CRLF pair (no stray CR inside a line) and the configured indent unit is
CR-free, the formatter's output contains no carriage-return character at
all: splitting on `\r?\n` and re-joining with `\n` silently normalizes a
CRLF document to LF.  (The unconditional form of the claim is refuted by
the stray-CR counterexample: a CR that is not part of a line ending
survives inside its line.) -/
theorem scs_c10_output_cr_free (opts : FormatOpts) (input : Str)
    (h1 : noStrayCR input = true) (h2 : '\r' ∉ opts.indent) :
    '\r' ∉ formatScsText opts input := by
  unfold formatScsText
  apply joinNl_noCR
  have hcr : CRInv (runFmt opts (splitLines input)) :=
    foldl_cr opts h2 (splitLines input) initState (splitLines_noCR input h1)
      ⟨by simp [initState], by simp [initState]⟩
  exact (flushGroup_cr opts _ hcr).1

/-- Witness for the amended C10 on a concrete CRLF document with the
default options: the hypotheses hold and the formatted output is CR-free. -/
theorem scs_c10_output_cr_free_witness :
    noStrayCR "x\r\ny: 1".data = true ∧ '\r' ∉ defaultOpts.indent ∧
    '\r' ∉ formatScsText defaultOpts "x\r\ny: 1".data :=
  ⟨by decide, by decide,
    scs_c10_output_cr_free defaultOpts "x\r\ny: 1".data (by decide) (by decide)⟩

/-- Witness for C5 at a `#` line that even contains a key-shaped fragment
and a numeric tuple: no color, no finding, verbatim passthrough. -/
theorem scs_c5_comment_prefix_skipped_witness :
    provideLineColors "# note_color: (1, 2, 3)".data = [] ∧
    findingOfLine ["dummy".data] "# note_color: (1, 2, 3)".data = none ∧
    ∃ k : ℕ, (processLine defaultOpts initState "# note_color: (1, 2, 3)".data).out =
      initState.out ++ flushLines defaultOpts initState.group ++
        [repeatN defaultOpts.indent k ++ jsTrim "# note_color: (1, 2, 3)".data] :=
  scs_c5_comment_prefix_skipped defaultOpts initState ["dummy".data] _
    (Or.inr (Or.inl (by decide)))

end ScsToolkit
